import Mathlib

/-!
Verification development for the glob-import resolution engine
(`babel-plugin-import-glob`): a shallow embedding of the source files in
`src/`, together with theorems settling the frozen claims about the
natural-language specification.

Conventions of the embedding:
* JavaScript strings are Lean `String`s; `Array.prototype.join` is `joinSep`;
  `lodash.uniq` is `uniq`; machine behaviour of external npm dependencies
  (`path`, `identifierfy`, `common-extname`, the `RegExp` builtin) is modelled
  by executable Lean functions, documented at each definition.
* Fallible operations return `Option`/`Except`; the babel visitor
  `ImportDeclaration` becomes a pure function returning a `TransformResult`.
-/

-- Decidable equality for `Except` results, used to evaluate the embedded
-- validation loop at concrete inputs.
deriving instance DecidableEq for Except

/-- JS `Array.prototype.join(sep)`. -/
def joinSep (sep : String) : List String → String
  | [] => ""
  | [x] => x
  | x :: y :: rest => x ++ sep ++ joinSep sep (y :: rest)

/-- lodash.uniq: keep the first occurrence of each element, preserving order. -/
def uniq : List String → List String
  | [] => []
  | x :: rest =>
    let r := uniq rest
    x :: r.filter (fun y => y ≠ x)

/-- JS `String.prototype.split` with a one-character separator, implemented
over the character list (so that it evaluates inside the kernel). -/
def splitChar (c : Char) : List Char → List (List Char)
  | [] => [[]]
  | x :: rest =>
    match splitChar c rest with
    | [] => [[]]
    | h :: t => if x = c then [] :: h :: t else (x :: h) :: t

/-- JS `s.split(sep)` for a one-character separator string. -/
def jsSplit (s : String) (c : Char) : List String :=
  (splitChar c s.data).map String.mk

/-- JS `s.startsWith(pre)`, implemented over character lists. -/
def jsStartsWith (s pre : String) : Bool :=
  pre.data.isPrefixOf s.data

namespace NodePath

/-- Node `path.sep` on POSIX systems. -/
def sep : String := "/"

/-- `path.sep` as the single character it consists of. -/
def sepChar : Char := '/'


/-- Collapse `.`/`..`/empty segments of an absolute path (model of the
normalization performed inside Node `path.resolve`, POSIX). -/
def normAbs (segs : List String) : List String :=
  segs.foldl
    (fun acc seg =>
      if seg = "" ∨ seg = "." then acc
      else if seg = ".." then acc.dropLast
      else acc ++ [seg])
    []

/-- Model of Node `path.resolve(cwd, p)` (POSIX), for an absolute `cwd`. -/
def resolve (cwd : String) (p : String) : String :=
  let joined := if jsStartsWith p "/" then p else cwd ++ "/" ++ p
  "/" ++ joinSep "/" (normAbs (jsSplit joined '/'))

/-- Model of Node `path.relative(from, to)` (POSIX), for absolute inputs. -/
def relative (f : String) (t : String) : String :=
  let fs := normAbs (jsSplit f '/')
  let ts := normAbs (jsSplit t '/')
  let common := (List.zip fs ts).takeWhile (fun q => q.1 = q.2) |>.length
  joinSep "/" (List.replicate (fs.length - common) ".." ++ ts.drop common)

/-- Model of Node `path.dirname` (POSIX). -/
def dirname (p : String) : String :=
  let segs := jsSplit p '/'
  match segs with
  | [] => "."
  | [_] => "."
  | _ =>
    let front := segs.dropLast
    if front.all (fun s => s = "") then "/" else joinSep "/" front

end NodePath

namespace Identifierfy

/-- Options record passed by `memberify` to the `identifierfy` dependency. -/
structure IdfyOptions where
  prefixReservedWords : Bool
  prefixInvalidIdentifiers : Bool
deriving DecidableEq, Repr

/-- ASCII model of a character valid at the start of a JS identifier. -/
def idStart (c : Char) : Bool := c.isAlpha || c = '_' || c = '$'

/-- ASCII model of a character valid inside a JS identifier. -/
def idPart (c : Char) : Bool := c.isAlphanum || c = '_' || c = '$'

/-- Sanitize pass: drop invalid characters, uppercasing the character that
follows a dropped one (hyphen-to-camelCase folding). Modelled from the spec:
the sanitize step of the external `identifierfy` dependency. -/
def sanitizeChars : List Char → Bool → List Char
  | [], _ => []
  | c :: rest, up =>
    if idPart c then (if up then c.toUpper else c) :: sanitizeChars rest false
    else sanitizeChars rest true

/-- A small model of the JS reserved-word table used by `identifierfy`. -/
def reservedWords : List String :=
  ["break", "case", "catch", "class", "const", "continue", "debugger",
   "default", "delete", "do", "else", "enum", "export", "extends", "false",
   "finally", "for", "function", "if", "import", "in", "instanceof", "new",
   "null", "return", "super", "switch", "this", "throw", "true", "try",
   "typeof", "var", "void", "while", "with", "yield", "let", "static",
   "await"]

/-- Modelled from the spec: the external `identifierfy` dependency. Sanitizes
`name`; returns `none` when nothing valid remains; prefixes an underscore for
an invalid leading character when `prefixInvalidIdentifiers`, and for a
reserved word when `prefixReservedWords`. -/
def identifierfy (name : String) (opts : IdfyOptions) : Option String :=
  let s := String.mk (sanitizeChars name.data false)
  match s.data with
  | [] => none
  | c :: _ =>
    let s := if opts.prefixInvalidIdentifiers && !(idStart c) then "_" ++ s else s
    let s := if opts.prefixReservedWords && reservedWords.contains s then "_" ++ s else s
    some s

end Identifierfy

namespace Main

open Identifierfy

/-- Loop body of `memberify` from `src/index.js` (lines 120–136): walk the
pieces with their index, returning `null` as soon as `identifierfy` does,
accumulating the sanitized ids otherwise. -/
def memberifyGo (idfy : String → IdfyOptions → Option String)
    (prefixReservedWords : Bool) : List String → Nat → List String → Option String
  | [], _, ids => some (joinSep "$" ids)
  | name :: rest, index, ids =>
    match idfy name ⟨prefixReservedWords, index == 0⟩ with
    | none => none
    | some id => memberifyGo idfy prefixReservedWords rest (index + 1) (ids ++ [id])

/-- `memberify` from `src/index.js`: split the subpath on `path.sep`, pass
`prefixReservedWords` exactly when there is a single piece and
`prefixInvalidIdentifiers` exactly for the first piece, join with `$`.
The imported `identifierfy` binding is passed explicitly. -/
def memberify (idfy : String → IdfyOptions → Option String) (subpath : String) :
    Option String :=
  let pieces := jsSplit subpath NodePath.sepChar
  let prefixReservedWords := pieces.length == 1
  memberifyGo idfy prefixReservedWords pieces 0 []

/-- All-or-nothing sequencing of a list of optional results (used by the
spec-side description `memberifyPerSpec`). -/
def seqOpt : List (Option String) → Option (List String)
  | [] => some []
  | none :: _ => none
  | some v :: rest =>
    match seqOpt rest with
    | none => none
    | some vs => some (v :: vs)

/-- Spec-side description of the identifier derivation (for the refinement
claim C1): split into pieces on the path separator, sanitize each piece with
the reserved-word option exactly when the subpath has exactly one piece and
the invalid-leading-character option exactly at index 0, fail if any piece
fails, and join the results with `$`. -/
def memberifyPerSpec (idfy : String → IdfyOptions → Option String)
    (subpath : String) : Option String :=
  let pieces := jsSplit subpath NodePath.sepChar
  let attempts := pieces.mapIdx fun i name =>
    idfy name ⟨pieces.length == 1, i == 0⟩
  (seqOpt attempts).map (joinSep "$")

end Main

namespace Rx

/-- Abstract syntax of the fragment of JS regular expressions produced by
minimatch sources and by the pattern compiler: literals, `.`, character
classes, concatenation, alternation, greedy/lazy repetition, capturing and
non-capturing groups, lookaheads, and the `^`/`$` anchors. -/
inductive RE where
  | eps
  | lit (c : Char)
  | anyC
  | cls (neg : Bool) (items : List (Char × Char))
  | seq (a b : RE)
  | alt (a b : RE)
  | star (r : RE) (lazy : Bool)
  | grp (idx : Nat) (r : RE)
  | look (neg : Bool) (r : RE)
  | bol
  | eol
deriving Repr, DecidableEq

/-- Repeat `r` exactly `n` times (used to desugar bounded repetition). -/
def repExact : Nat → RE → RE
  | 0, _ => .eps
  | n + 1, r => .seq r (repExact n r)

/-- Up-to-`n` optional repetitions of `r` (greedy), desugaring `{m,n}`. -/
def repUpTo : Nat → RE → RE
  | 0, _ => .eps
  | n + 1, r => .alt (.seq r (repUpTo n r)) .eps

/-- Parse a character-class body after `[` (and after any `^`), up to `]`. -/
def pClassItems : Nat → List Char → Option (List (Char × Char) × List Char)
  | 0, _ => none
  | _ + 1, ']' :: rest => some ([], rest)
  | fuel + 1, cs =>
    match cs with
    | '\\' :: c :: rest =>
      match rest with
      | '-' :: ']' :: rest2 => do
        let (items, r) ← pClassItems fuel (']' :: rest2)
        pure ((c, c) :: ('-', '-') :: items, r)
      | '-' :: '\\' :: d :: rest2 => do
        let (items, r) ← pClassItems fuel rest2
        pure ((c, d) :: items, r)
      | '-' :: d :: rest2 =>
        if d = ']' then none else do
          let (items, r) ← pClassItems fuel rest2
          pure ((c, d) :: items, r)
      | _ => do
        let (items, r) ← pClassItems fuel rest
        pure ((c, c) :: items, r)
    | c :: rest =>
      match rest with
      | '-' :: ']' :: rest2 => do
        let (items, r) ← pClassItems fuel (']' :: rest2)
        pure ((c, c) :: ('-', '-') :: items, r)
      | '-' :: '\\' :: d :: rest2 => do
        let (items, r) ← pClassItems fuel rest2
        pure ((c, d) :: items, r)
      | '-' :: d :: rest2 =>
        if d = ']' then none else do
          let (items, r) ← pClassItems fuel rest2
          pure ((c, d) :: items, r)
      | _ => do
        let (items, r) ← pClassItems fuel rest
        pure ((c, c) :: items, r)
    | [] => none

/-- Decimal value of a digit list. -/
def digitsVal (ds : List Char) : Nat :=
  ds.foldl (fun a c => a * 10 + (c.toNat - 48)) 0

/-- Parse decimal digits. -/
def pDigits (cs : List Char) : Option (Nat × List Char) :=
  let ds := cs.takeWhile Char.isDigit
  if ds.isEmpty then none
  else some (digitsVal ds, cs.drop ds.length)

/-- Parser modes: alternation, concatenation, quantified atom, atom. -/
inductive PMode where
  | modeAlt
  | modeSeq
  | modeAtomQ
  | modeAtom
deriving Repr, DecidableEq

/-- Recursive-descent parser for the regex fragment, as a single
fuel-structural function over the parsing mode.  Group indices are threaded
through in `g`. -/
def pRun : Nat → PMode → List Char → Nat → Option (RE × List Char × Nat)
  | 0, _, _, _ => none
  | fuel + 1, .modeAlt, cs, g => do
    let (r, cs, g) ← pRun fuel .modeSeq cs g
    match cs with
    | '|' :: rest => do
      let (r2, cs, g) ← pRun fuel .modeAlt rest g
      pure (.alt r r2, cs, g)
    | _ => pure (r, cs, g)
  | fuel + 1, .modeSeq, cs, g =>
    match cs with
    | [] => some (.eps, [], g)
    | ')' :: _ => some (.eps, cs, g)
    | '|' :: _ => some (.eps, cs, g)
    | _ => do
      let (a, cs, g) ← pRun fuel .modeAtomQ cs g
      let (b, cs, g) ← pRun fuel .modeSeq cs g
      pure (.seq a b, cs, g)
  | fuel + 1, .modeAtomQ, cs, g => do
    let (a, cs, g) ← pRun fuel .modeAtom cs g
    match cs with
    | '*' :: '?' :: rest => pure (.star a true, rest, g)
    | '*' :: rest => pure (.star a false, rest, g)
    | '+' :: '?' :: rest => pure (.seq a (.star a true), rest, g)
    | '+' :: rest => pure (.seq a (.star a false), rest, g)
    | '?' :: '?' :: rest => pure (.alt .eps a, rest, g)
    | '?' :: rest => pure (.alt a .eps, rest, g)
    | '{' :: rest => do
      let (m, rest) ← pDigits rest
      match rest with
      | '}' :: rest2 => pure (repExact m a, rest2, g)
      | ',' :: '}' :: rest2 => pure (.seq (repExact m a) (.star a false), rest2, g)
      | ',' :: rest2 => do
        let (n, rest3) ← pDigits rest2
        match rest3 with
        | '}' :: rest4 => pure (.seq (repExact m a) (repUpTo (n - m) a), rest4, g)
        | _ => none
      | _ => none
    | _ => pure (a, cs, g)
  | fuel + 1, .modeAtom, cs, g =>
    match cs with
    | '(' :: '?' :: ':' :: rest => do
      let (r, cs, g) ← pRun fuel .modeAlt rest g
      match cs with
      | ')' :: rest2 => pure (.grp 0 r, rest2, g)
      | _ => none
    | '(' :: '?' :: '=' :: rest => do
      let (r, cs, g) ← pRun fuel .modeAlt rest g
      match cs with
      | ')' :: rest2 => pure (.look false r, rest2, g)
      | _ => none
    | '(' :: '?' :: '!' :: rest => do
      let (r, cs, g) ← pRun fuel .modeAlt rest g
      match cs with
      | ')' :: rest2 => pure (.look true r, rest2, g)
      | _ => none
    | '(' :: rest => do
      let idx := g + 1
      let (r, cs, g2) ← pRun fuel .modeAlt rest idx
      match cs with
      | ')' :: rest2 => pure (.grp idx r, rest2, g2)
      | _ => none
    | '[' :: '^' :: rest => do
      let (items, r) ← pClassItems (fuel + 1) rest
      pure (.cls true items, r, g)
    | '[' :: rest => do
      let (items, r) ← pClassItems (fuel + 1) rest
      pure (.cls false items, r, g)
    | '\\' :: c :: rest => pure (.lit c, rest, g)
    | '.' :: rest => pure (.anyC, rest, g)
    | '^' :: rest => pure (.bol, rest, g)
    | '$' :: rest => pure (.eol, rest, g)
    | c :: rest => pure (.lit c, rest, g)
    | [] => none

/-- Parse a whole regex source string into an `RE` plus its number of
capturing groups; `none` on syntax errors or unsupported constructs. -/
def parseRE (source : String) : Option (RE × Nat) := do
  let cs := source.data
  let (r, rest, g) ← pRun (cs.length * 4 + 8) .modeAlt cs 0
  match rest with
  | [] => pure (r, g)
  | _ => none

/-- Case-insensitive character comparison (simple ASCII folding, a model of
the JS `i` flag). -/
def charEq (ic : Bool) (a b : Char) : Bool :=
  if ic then a.toLower == b.toLower else a == b

/-- Does character `c` satisfy a character class? -/
def clsMatch (ic : Bool) (neg : Bool) (items : List (Char × Char)) (c : Char) : Bool :=
  let inR := fun (lo hi x : Char) => decide (lo ≤ x) && decide (x ≤ hi)
  let hit := items.any fun q =>
    inR q.1 q.2 c || (ic && (inR q.1 q.2 c.toLower || inR q.1 q.2 c.toUpper))
  if neg then !hit else hit

/-- Captures: slot `i` holds the span of capture group `i + 1`. -/
abbrev Caps := List (Option (Nat × Nat))

/-- Fallback composition for backtracking alternatives. -/
def orElseO (a : Option (Nat × Caps)) (b : Unit → Option (Nat × Caps)) :
    Option (Nat × Caps) :=
  match a with
  | some x => some x
  | none => b ()

/-- Backtracking matcher with explicit fuel, modelling the JS `RegExp`
engine's leftmost/greedy-vs-lazy search order, including the rule that a
repetition stops when its body matches the empty string. -/
def mtch (s : List Char) (ic : Bool) :
    Nat → RE → Nat → Caps → (Nat → Caps → Option (Nat × Caps)) → Option (Nat × Caps)
  | 0, _, _, _, _ => none
  | _ + 1, .eps, pos, caps, k => k pos caps
  | _ + 1, .lit c, pos, caps, k =>
    match s.get? pos with
    | some sc => if charEq ic c sc then k (pos + 1) caps else none
    | none => none
  | _ + 1, .anyC, pos, caps, k =>
    if pos < s.length then k (pos + 1) caps else none
  | _ + 1, .cls neg items, pos, caps, k =>
    match s.get? pos with
    | some sc => if clsMatch ic neg items sc then k (pos + 1) caps else none
    | none => none
  | fuel + 1, .seq a b, pos, caps, k =>
    mtch s ic fuel a pos caps (fun p c => mtch s ic fuel b p c k)
  | fuel + 1, .alt a b, pos, caps, k =>
    orElseO (mtch s ic fuel a pos caps k) (fun _ => mtch s ic fuel b pos caps k)
  | fuel + 1, .star r lazy, pos, caps, k =>
    if lazy then
      orElseO (k pos caps) (fun _ =>
        mtch s ic fuel r pos caps (fun p c =>
          if p == pos then none else mtch s ic fuel (.star r lazy) p c k))
    else
      orElseO
        (mtch s ic fuel r pos caps (fun p c =>
          if p == pos then none else mtch s ic fuel (.star r lazy) p c k))
        (fun _ => k pos caps)
  | fuel + 1, .grp idx r, pos, caps, k =>
    if idx == 0 then mtch s ic fuel r pos caps k
    else mtch s ic fuel r pos caps (fun p c => k p (c.set (idx - 1) (some (pos, p))))
  | fuel + 1, .look neg r, pos, caps, k =>
    match mtch s ic fuel r pos caps (fun p c => some (p, c)) with
    | some _ => if neg then none else k pos caps
    | none => if neg then k pos caps else none
  | _ + 1, .bol, pos, caps, k => if pos == 0 then k pos caps else none
  | _ + 1, .eol, pos, caps, k => if pos == s.length then k pos caps else none

/-- Substring of `s` between positions `a` and `b`. -/
def sliceL (s : List Char) (a b : Nat) : String :=
  String.mk ((s.take b).drop a)

/-- Fuel bound for the matcher: generous polynomial in regex and input size. -/
def fuelFor (source : String) (s : List Char) : Nat :=
  (source.length + 2) * (s.length + 2) * (s.length + 2) * 16

/-- Try to match at position `pos`. -/
def execAt (re : RE) (gcount : Nat) (fuel : Nat) (s : List Char) (ic : Bool)
    (pos : Nat) : Option (Nat × Caps) :=
  mtch s ic fuel re pos (List.replicate gcount none) (fun p c => some (p, c))

/-- Scan start positions left to right, as `String.prototype.match` does. -/
def scanFrom (re : RE) (gcount : Nat) (fuel : Nat) (s : List Char) (ic : Bool) :
    Nat → Nat → Option (Nat × Nat × Caps)
  | 0, _ => none
  | f + 1, pos =>
    match execAt re gcount fuel s ic pos with
    | some (stop, caps) => some (pos, stop, caps)
    | none =>
      if pos < s.length then scanFrom re gcount fuel s ic f (pos + 1) else none

/-- Model of JS `str.match(new RegExp(source, flags))`: `none` for no match
(or an unparseable source), otherwise the list `m` with `m[0]` the full match
and `m[i]` the `i`-th capture (`none` for a group that did not participate). -/
def jsMatch (source : String) (ic : Bool) (str : String) :
    Option (List (Option String)) :=
  match parseRE source with
  | none => none
  | some (re, gcount) =>
    let s := str.data
    match scanFrom re gcount (fuelFor source s) s ic (s.length + 1) 0 with
    | none => none
    | some (start, stop, caps) =>
      some (some (sliceL s start stop) ::
        caps.map (fun c => c.map (fun q => sliceL s q.1 q.2)))

end Rx

namespace Main

open Identifierfy

/-- escape-string-regexp v1: prefix a backslash to every regex operator
character. -/
def escSpecials : List Char :=
  ['|', '\\', '\x7b', '\x7d', '(', ')', '[', ']', '^', '$', '+', '*', '?', '.']

/-- escape-string-regexp, as required by `src/index.js`. -/
def escapeStringRegexp (s : String) : String :=
  String.mk (s.data.foldr
    (fun c acc => if escSpecials.contains c then '\\' :: c :: acc else c :: acc) [])

/-- The `twoStar` constant of `src/index.js` (line 11), substituted for
minimatch's `GLOBSTAR`. -/
def twoStar : String := "(?:(?!(?:/|^)\\.).)*?"

/-- One element of a minimatch `set` expression: a literal path segment,
the `GLOBSTAR` marker, or a compiled sub-regex carrying its `.source`
(anchored with `^`/`$`, as minimatch produces it). -/
inductive MMPart where
  | str (s : String)
  | globstar
  | rx (source : String)
deriving DecidableEq, Repr

/-- JS `subexp.source.slice(1, -1)` (also minimatch's `_src`): the sub-regex
source without its `^`/`$` anchors. -/
def rxSrc (source : String) : String := String.mk source.data.tail.dropLast

/-- Is this part a literal string segment? -/
def isStrPart : MMPart → Bool
  | .str _ => true
  | _ => false

/-- Literal value of a `str` part (the JS code would crash on a misaligned
set; the default is never read under the theorems' hypotheses). -/
def strVal : MMPart → String
  | .str s => s
  | _ => ""

/-- Sliced source of an `rx` part (same caveat as `strVal`). -/
def rxVal : MMPart → String
  | .rx s => rxSrc s
  | _ => ""

/-- An element of the flattened expression list: a fixed segment string or a
dynamic column (array of sub-expression strings, as in the JS code). -/
inductive FlatExpr where
  | fixed (s : String)
  | dyn (ss : List String)
deriving DecidableEq, Repr

/-- JS `Array.isArray` on a flattened element. -/
def isDyn : FlatExpr → Bool
  | .dyn _ => true
  | _ => false

/-- `flattenSet` from `src/index.js` (lines 24–44): map over the first
alternative's parts; `GLOBSTAR` becomes the `twoStar` expression, literal
columns are escaped and deduplicated (collapsing to a plain string when all
alternatives agree), regex columns collect the deduplicated sliced sources. -/
def flattenSet (set : List (List MMPart)) : List FlatExpr :=
  match set with
  | [] => []
  | first :: _ =>
    first.mapIdx fun index firstExpression =>
      match firstExpression with
      | .globstar => .dyn [twoStar]
      | .str _ =>
        let subExpressions :=
          uniq ((set.map fun expressions =>
            strVal (expressions.getD index (.str ""))).map escapeStringRegexp)
        if subExpressions.length == 1 then .fixed (subExpressions.headD "")
        else .dyn subExpressions
      | .rx _ =>
        .dyn (uniq (set.map fun expressions =>
          rxVal (expressions.getD index (.str ""))))

/-- `joinExpression` from `src/index.js` (lines 51–56). -/
def joinExpression (expression : List String) : String :=
  if expression.length > 1 then "(?:" ++ joinSep "|" expression ++ ")"
  else expression.headD ""

/-- The string one flattened column contributes to the joined expression list
(the body of the `expressions.map` at lines 90–92 of `src/index.js`). -/
def joinedOf : FlatExpr → String
  | .fixed s => s
  | .dyn col => joinExpression col

/-- Characters allowed in an extension group body (`[A-Za-z0-9]`). -/
def isAln (c : Char) : Bool := c.isAlphanum

/-- Consume one extension group from a reversed character list: one or more
alphanumerics, then `.`, then `\`. -/
def grpRev (l : List Char) : Option (Nat × List Char) :=
  let al := l.takeWhile isAln
  if al.isEmpty then none
  else
    match l.dropWhile isAln with
    | '.' :: '\\' :: r => some (al.length + 2, r)
    | _ => none

/-- Total length of the maximal run of reversed extension groups. -/
def extLenRev : Nat → List Char → Nat
  | 0, _ => 0
  | fuel + 1, l =>
    match grpRev l with
    | none => 0
    | some (n, r) => n + extLenRev fuel r

/-- Length of the match of JS `/(?:\\\.[A-Za-z0-9]+)*$/` against `s`: the
longest suffix decomposing into `\.`-plus-alphanumerics groups. -/
def extLen (s : String) : Nat := extLenRev s.length s.data.reverse

/-- The trailing extension of a sub-expression string (may be empty). -/
def takeExt (s : String) : String :=
  String.mk (s.data.drop (s.data.length - extLen s))

/-- The sub-expression string with its trailing extension removed
(JS `expression.slice(0, -extension.length)`). -/
def dropExt (s : String) : String :=
  String.mk (s.data.take (s.data.length - extLen s))

/-- `splitExtensions` from `src/index.js` (lines 63–76): split each
sub-expression string into a filename part and (when non-empty) a trailing
extension part, keeping order. -/
def splitExtensions : List String → List String × List String
  | [] => ([], [])
  | expression :: rest =>
    if takeExt expression ≠ "" then
      (dropExt expression :: (splitExtensions rest).1,
       takeExt expression :: (splitExtensions rest).2)
    else (expression :: (splitExtensions rest).1, (splitExtensions rest).2)

/-- Index of the first dynamic column (JS `findIndex(Array.isArray)`,
with `none` for `-1`). -/
def findIdxDyn : List FlatExpr → Option Nat
  | [] => none
  | x :: rest => if isDyn x then some 0 else (findIdxDyn rest).map (· + 1)

/-- Index of the last dynamic column (lodash `findLastIndex`). -/
def findLastIdxDyn (l : List FlatExpr) : Option Nat :=
  (findIdxDyn l.reverse).map (fun i => l.length - 1 - i)

/-- In-place update at a JS index that may be `-1` (`none`), in which case the
assignment lands on a non-element property and the list is unchanged. -/
def modifyAt (l : List String) (i : Option Nat) (f : String → String) : List String :=
  match i with
  | none => l
  | some i => l.set i (f (l.getD i ""))

/-- `makeSubpathExpression` from `src/index.js` (lines 78–104): flatten the
set, split a trailing extension off the last column when that column is the
last dynamic one, join each column, open the capture at the first dynamic
column and close it at the last, join the columns with `/`, append the
non-captured extension alternatives, and anchor the whole expression. -/
def makeSubpathExpression (set : List (List MMPart)) : String :=
  let expressions := flattenSet set
  let captureStart := findIdxDyn expressions
  let captureStop := findLastIdxDyn expressions
  let withSplit :=
    match captureStop with
    | some cs =>
      if cs == expressions.length - 1 then
        match expressions.getD cs (.dyn []) with
        | .dyn col =>
          let split := splitExtensions col
          (expressions.set cs (.dyn (uniq split.1)), uniq split.2)
        | .fixed _ => (expressions, [])
      else (expressions, [])
    | none => (expressions, [])
  let expressions2 := withSplit.1
  let extensionExpression := withSplit.2
  let joined := expressions2.map joinedOf
  let joined2 := modifyAt joined captureStart (fun s => "(" ++ s)
  let joined3 := modifyAt joined2 captureStop (fun s => s ++ ")")
  let finalExpression := joinSep "/" joined3
  let finalExpression2 :=
    if extensionExpression.length > 0 then
      finalExpression ++ joinExpression extensionExpression
    else finalExpression
  "^" ++ finalExpression2 ++ "$"

/-- The value `new RegExp(expression, 'i')` of `src/index.js` line 108:
source plus the always-set `i` (ignore-case) flag. -/
structure JsRegexp where
  source : String
  ignoreCase : Bool
deriving DecidableEq, Repr

/-- Constructor used by `generateMembers`: the flags argument is the literal
`'i'`. -/
def newRegExpI (expression : String) : JsRegexp := ⟨expression, true⟩

/-- The external glob primitive's output consumed by `generateMembers`:
the sorted list of matched paths and the minimatch `set`. -/
structure GlobResult where
  found : List String
  set : List (List MMPart)
deriving DecidableEq, Repr

/-- One member record `{file, relative, name}`. -/
structure Member where
  file : String
  relative : String
  name : Option String
deriving DecidableEq, Repr

/-- JS `match[i]` on a possibly-null match object (the code only indexes
matches that succeeded; the defaults model the otherwise-crashing accesses). -/
def matchGroup (m : Option (List (Option String))) (i : Nat) : String :=
  ((m.getD []).getD i none).getD ""

/-- `generateMembers` from `src/index.js` (lines 106–118). -/
def generateMembers (globObj : GlobResult) (cwd : String) : List Member :=
  let expression := makeSubpathExpression globObj.set
  let regexp := newRegExpI expression
  globObj.found.map fun file =>
    let m := Rx.jsMatch regexp.source regexp.ignoreCase file
    let subpath := matchGroup m 1
    { file := file
      relative := "./" ++ NodePath.relative cwd (NodePath.resolve cwd file)
      name := memberify Identifierfy.identifierfy subpath }

/-- The validation loop of `ImportDeclaration` (`src/index.js` lines
204–214): reject a `null` name, then a name already seen, else record it. -/
def checkMembers : List Member → List String → Except String Unit
  | [], _ => .ok ()
  | member :: rest, seen =>
    match member.name with
    | none =>
      .error ("Could not generate a valid identifier for '" ++ member.file ++ "'")
    | some n =>
      if n ∈ seen then .error ("Found colliding members '" ++ n ++ "'")
      else checkMembers rest (n :: seen)

/-- Import specifiers, by babel type. -/
inductive Specifier where
  | importDefault (localName : String)
  | importNamed (importedName localName : String)
  | importNamespace (localName : String)
deriving DecidableEq, Repr

/-- `hasImportDefaultSpecifier` from `src/index.js` (lines 138–140). -/
def hasImportDefaultSpecifier (specifiers : List Specifier) : Bool :=
  specifiers.any fun s =>
    match s with
    | .importDefault _ => true
    | _ => false

/-- Local name of a specifier. -/
def localOf : Specifier → String
  | .importDefault l => l
  | .importNamed _ l => l
  | .importNamespace l => l

/-- Replacement statements produced by the rewriter. -/
inductive Stmt where
  | importDefault (localName src : String)
  | importBare (src : String)
  | namespaceObj (localName : String) (props : List (String × String))
  | freeze (localName : String)
deriving DecidableEq, Repr

/-- Outcome of one `ImportDeclaration` visit. -/
inductive TransformResult where
  | unchanged
  | error (message : String)
  | replaced (stmts : List Stmt)
deriving DecidableEq, Repr

/-- The external `glob` module: wildcard detection plus synchronous matching
(`new glob.GlobSync(pattern, \x7bcwd, strict: true\x7d)`). -/
structure GlobAPI where
  hasMagic : String → Bool
  globSync : String → String → GlobResult

/-- Post-check member name (non-null once `checkMembers` has passed). -/
def nameD (m : Member) : String := m.name.getD ""

/-- Replacement for a single specifier (`src/index.js` lines 218–236). -/
def buildOne (members : List Member) (s : Specifier) : Except String (List Stmt) :=
  match s with
  | .importNamed importName localName =>
    match members.find? (fun m => m.name == some importName) with
    | none =>
      .error ("Could not match import '" ++ importName ++
        "' to a module. Available members are '" ++
        joinSep "', '" (members.map nameD) ++ "'")
    | some member => .ok [.importDefault localName member.relative]
  | other =>
    let localName := localOf other
    .ok (members.map
          (fun m => Stmt.importDefault ("_" ++ localName ++ "_" ++ nameD m) m.relative)
        ++ [Stmt.namespaceObj localName
              (members.map fun m => (nameD m, "_" ++ localName ++ "_" ++ nameD m)),
            Stmt.freeze localName])

/-- Accumulate replacements over the specifier list, aborting on the first
error (the JS loop throws out of the visitor). -/
def buildReplacement (members : List Member) : List Specifier → Except String (List Stmt)
  | [] => .ok []
  | s :: rest =>
    match buildOne members s with
    | .error e => .error e
    | .ok a =>
      match buildReplacement members rest with
      | .error e => .error e
      | .ok b => .ok (a ++ b)

/-- The pattern after `pattern.replace(/^glob:/, '')`. -/
def patternOf (sourceValue : String) : String :=
  if jsStartsWith sourceValue "glob:" then String.mk (sourceValue.data.drop 5)
  else sourceValue

/-- Members derived for one import statement (with `cwd` the directory of the
importing file). -/
def membersOf (glob : GlobAPI) (sourceValue filename : String) : List Member :=
  generateMembers
    (glob.globSync (patternOf sourceValue) (NodePath.dirname filename))
    (NodePath.dirname filename)

/-- The `ImportDeclaration` visitor of `src/index.js` (lines 175–244), as a
pure function: thrown `buildCodeFrameError`s become `TransformResult.error`,
`replaceWithMultiple` becomes `TransformResult.replaced`, and the early
return leaves the import `unchanged`. -/
def transform (glob : GlobAPI) (specifiers : List Specifier) (sourceValue : String)
    (filename : String) : TransformResult :=
  if !(glob.hasMagic sourceValue) then
    if jsStartsWith sourceValue "glob:" then
      .error ("Missing glob pattern '" ++ sourceValue ++ "'")
    else .unchanged
  else
    let pattern := patternOf sourceValue
    if hasImportDefaultSpecifier specifiers then
      .error "Cannot import the default member"
    else if !(jsStartsWith pattern ".") then
      .error ("Glob pattern must be relative, was '" ++ pattern ++ "'")
    else
      let members := membersOf glob sourceValue filename
      match checkMembers members [] with
      | .error e => .error e
      | .ok _ =>
        if specifiers.length > 0 then
          match buildReplacement members specifiers with
          | .error e => .error e
          | .ok stmts => .replaced stmts
        else
          .replaced (members.map fun m => Stmt.importBare m.relative)

/-- Minimatch output modelled for the pattern `*.txt`: a single alternative
whose single part is the sub-regex `/^(?!\.)(?=.)[^\/]*?\.txt$/`. -/
def setStarTxt : List (List MMPart) := [[.rx "^(?!\\.)(?=.)[^/]*?\\.txt$"]]

/-- Minimatch output modelled for the pattern `*.foo.txt`. -/
def setStarFooTxt : List (List MMPart) := [[.rx "^(?!\\.)(?=.)[^/]*?\\.foo\\.txt$"]]

/-- Minimatch output modelled for the pattern `./*.txt`: the literal `.`
segment followed by the `*.txt` sub-regex. -/
def setDotStarTxt : List (List MMPart) :=
  [[.str ".", .rx "^(?!\\.)(?=.)[^/]*?\\.txt$"]]

/-- Minimatch output modelled for the pattern `../test/fixtures/foo-bar/*.txt`. -/
def setDotDotFooBar : List (List MMPart) :=
  [[.str "..", .str "test", .str "fixtures", .str "foo-bar",
    .rx "^(?!\\.)(?=.)[^/]*?\\.txt$"]]

end Main

/-- JS `String.prototype.slice(a, b)` with possibly negative indices. -/
def jsSlice (s : String) (a b : Int) : String :=
  let n : Int := s.data.length
  let st := if a < 0 then (a + n).toNat else min a.toNat s.data.length
  let en := if b < 0 then (b + n).toNat else min b.toNat s.data.length
  String.mk ((s.data.take en).drop st)

namespace Sub

/-- Constants from `src/src/index.js` lines 15–17. -/
def star : String := "[^/]*?"

/-- The globstar expression used when the `dot` option is set. -/
def twoStarDot : String := "(?:(?!(?:/|^)(?:\\.\x7b1,2\x7d)($|/)).)*?"

/-- The default globstar expression (dot files excluded). -/
def twoStarNoDot : String := "(?:(?!(?:/|^)\\.).)*?"

/-- Characters escaped by `regExpEscape` in `src/src/index.js` lines 68–70
(the class `[-[\]{}()*+?.,\\^$|#\s]`, with `\s` as ASCII whitespace). -/
def escCharsSub : List Char :=
  ['-', '[', ']', '\x7b', '\x7d', '(', ')', '*', '+', '?', '.', ',', '\\',
   '^', '$', '|', '#', ' ', '\t', '\n', '\r', '\x0b', '\x0c']

/-- `regExpEscape` from `src/src/index.js`. -/
def regExpEscape (s : String) : String :=
  String.mk (s.data.foldr
    (fun c acc => if escCharsSub.contains c then '\\' :: c :: acc else c :: acc) [])

/-- The minimatch options consulted by `generateMembers`. -/
structure MMOptions where
  noglobstar : Bool
  dot : Bool
  nocase : Bool
deriving DecidableEq, Repr

/-- Longest common prefix of two character lists. -/
def commonPrefL : List Char → List Char → List Char
  | [], _ => []
  | _, [] => []
  | a :: as, b :: bs => if a = b then a :: commonPrefL as bs else []

/-- Reversed longest common suffix of a list of strings. -/
def commonSuffixRev (paths : List String) : List Char :=
  match paths with
  | [] => []
  | x :: rest => rest.foldl (fun acc y => commonPrefL acc y.data.reverse) x.data.reverse

/-- One reversed plain extension group: alphanumerics then a dot. -/
def grpRevPlain (l : List Char) : Option (Nat × List Char) :=
  let al := l.takeWhile Main.isAln
  if al.isEmpty then none
  else
    match l.drop al.length with
    | '.' :: r => some (al.length + 1, r)
    | _ => none

/-- Length of the maximal run of reversed plain extension groups. -/
def extChainLenRev : Nat → List Char → Nat
  | 0, _ => 0
  | fuel + 1, l =>
    match grpRevPlain l with
    | none => 0
    | some (n, r) => n + extChainLenRev fuel r

/-- Modelled from the spec: the external `common-extname` dependency — the
longest common compound-extension suffix (`.`-separated alphanumeric groups)
shared by every path. -/
def commonExtname (paths : List String) : String :=
  let r := commonSuffixRev paths
  String.mk (r.take (extChainLenRev r.length r)).reverse

/-- Modelled from the spec: the external `common-path-prefix` dependency —
the longest common prefix of at least two paths, cut after its last `/`. -/
def commonPathStart (paths : List String) : String :=
  match paths with
  | [] => ""
  | [_] => ""
  | x :: rest =>
    let p := rest.foldl (fun acc y => commonPrefL acc y.data) x.data
    String.mk (p.reverse.dropWhile (fun c => c ≠ '/')).reverse

/-- Number of non-string (dynamic) parts of `ps`
(JS `ps.reduce((c, p) => typeof p !== 'string' ? c + 1 : c, 0)`). -/
def dynCount (ps : List Main.MMPart) : Int :=
  (ps.countP fun p => !(Main.isStrPart p) : Nat)

/-- JS `index > last ? last : index` clamping. -/
def clampIdx (index last : Int) : Int :=
  if last < index then last else index

/-- Regex source contributed by one part (`src/src/index.js` lines 29–31):
globstars become the captured two-star expression, strings are escaped, and
compiled sub-regexes contribute their captured `_src`. -/
def partSrc (twoStarS : String) : Main.MMPart → String
  | .globstar => twoStarS
  | .str s => regExpEscape s
  | .rx src => "(" ++ Main.rxSrc src ++ ")"

/-- The `index >= 0` branch of `generateMembers` from `src/src/index.js`
(lines 22–55), with the member index already clamped: build the anchored
alternation-free regex over `set[0]`, and when the clamped index selects the
final dynamic part, strip the common extension from the sub-capture before
deriving the member name. -/
def generateMembersAt (found : List String) (ps : List Main.MMPart)
    (options : MMOptions) (cwd : String) (index : Int) : List Main.Member :=
  let rp := fun f => "./" ++ NodePath.relative cwd (NodePath.resolve cwd f)
  let twoStarS := "(" ++ (if options.noglobstar then star
    else if options.dot then twoStarDot else twoStarNoDot) ++ ")"
  let flags := options.nocase
  let source := "^(?:" ++ joinSep "/" (ps.map (partSrc twoStarS)) ++ ")$"
  let last := dynCount ps - 1
  let lastDyn :=
    match ps.getLast? with
    | some p => !(Main.isStrPart p)
    | none => false
  if lastDyn && (index == last) then
    let suffix := (commonExtname found).length
    found.map fun f =>
      let p := Main.matchGroup (Rx.jsMatch source flags f) (index.toNat + 1)
      { file := f
        relative := rp f
        name := Main.memberify Identifierfy.identifierfy
          (jsSlice p 0 ((p.length : Int) - suffix)) }
  else
    found.map fun f =>
      { file := f
        relative := rp f
        name := Main.memberify Identifierfy.identifierfy
          (Main.matchGroup (Rx.jsMatch source flags f) (index.toNat + 1)) }

/-- The `index >= 0` branch with the clamping step
(JS `if (index > last) index = last`). -/
def generateMembersPos (found : List String) (ps : List Main.MMPart)
    (options : MMOptions) (cwd : String) (index : Int) : List Main.Member :=
  generateMembersAt found ps options cwd (clampIdx index (dynCount ps - 1))

/-- `generateMembers` from `src/src/index.js` (lines 19–66): the indexed
branch when a `$N` member was requested, the common prefix/extension slicing
otherwise. -/
def generateMembers (found : List String) (set : List (List Main.MMPart))
    (options : MMOptions) (cwd : String) (index : Int) : List Main.Member :=
  if index ≥ 0 then
    generateMembersPos found (set.headD []) options cwd index
  else
    let rp := fun f => "./" ++ NodePath.relative cwd (NodePath.resolve cwd f)
    let pfxLen : Int := (commonPathStart found).length
    let sufLen : Int := (commonExtname found).length
    found.map fun f =>
      { file := f
        relative := rp f
        name := Main.memberify Identifierfy.identifierfy
          (jsSlice f pfxLen ((f.length : Int) - sufLen)) }

/-- Minimatch `set[0]` modelled for the pattern `x/*.txt`. -/
def setSubXTxt : List (List Main.MMPart) :=
  [[.str "x", .rx "^(?!\\.)(?=.)[^/]*?\\.txt$"]]

end Sub

namespace Main

/-- State of the capture-group scanner over a regex source string: captures
counted so far, whether the previous character was an escaping backslash, and
whether an unescaped `(` is pending (its capturing status is decided by the
next character). -/
structure CapSt where
  count : Nat
  esc : Bool
  paren : Bool
deriving DecidableEq, Repr

/-- One scanner step: an escaped character is consumed; a pending `(`
followed by anything but `?` is a capturing group. -/
def capStep (st : CapSt) (c : Char) : CapSt :=
  if st.esc then ⟨st.count, false, false⟩
  else
    let cnt := if st.paren && c ≠ '?' then st.count + 1 else st.count
    if c = '\\' then ⟨cnt, true, false⟩
    else if c = '(' then ⟨cnt, false, true⟩
    else ⟨cnt, false, false⟩

/-- Run the scanner over a character list. -/
def runCaps (st : CapSt) (l : List Char) : CapSt := l.foldl capStep st

/-- Initial scanner state. -/
def initSt : CapSt := ⟨0, false, false⟩

/-- Number of capturing groups — unescaped `(` not followed by `?` — in a
regex source string. -/
def countCaptures (s : String) : Nat :=
  let st := runCaps initSt s.data
  st.count + (if st.paren then 1 else 0)

/-- A string whose scan is capture-free and returns the scanner to the
initial state. -/
def NeutralZ (s : String) : Prop := runCaps initSt s.data = initSt

/-- A string whose scan contributes exactly one capture and ends neutrally. -/
def OneCap (s : String) : Prop := runCaps initSt s.data = ⟨1, false, false⟩

/-- A sub-expression string as used inside the compiled pattern: neutral,
non-empty, and not starting with `?`. -/
def GoodStr (x : String) : Prop :=
  NeutralZ x ∧ x.data ≠ [] ∧ x.data.head? ≠ some '?'

/-- Kind tag of a minimatch part. -/
def partKind : MMPart → Nat
  | .str _ => 0
  | .globstar => 1
  | .rx _ => 2

/-- Well-formedness of a part: its contributed regex fragment (and that
fragment with a trailing extension split off) is a good sub-expression. -/
def GoodPart : MMPart → Prop
  | .str s => GoodStr (escapeStringRegexp s) ∧ GoodStr (dropExt (escapeStringRegexp s))
  | .globstar => True
  | .rx s => GoodStr (rxSrc s) ∧ GoodStr (dropExt (rxSrc s))

/-- Hypotheses of the anchoring/single-capture theorem: a non-empty set of
equally long, column-aligned alternatives whose parts are well-formed, with
at least one dynamic column. -/
def GoodSet (set : List (List MMPart)) : Prop :=
  match set with
  | [] => False
  | first :: _ =>
    first ≠ []
    ∧ (∀ e ∈ set, e.length = first.length)
    ∧ (∀ e ∈ set, ∀ p ∈ e, GoodPart p)
    ∧ (∀ e ∈ set, ∀ i, i < first.length →
        partKind (e.getD i (.str "")) = partKind (first.getD i (.str "")))
    ∧ (flattenSet set).any isDyn = true

/-- Elements of a flattened column, as needed for neutrality reasoning. -/
def OkFlat : FlatExpr → Prop
  | .fixed s => NeutralZ s
  | .dyn col => col ≠ [] ∧ ∀ x ∈ col, GoodStr x

/-- Elements of a flattened column together with their extension-stripped
versions. -/
def GoodFlat : FlatExpr → Prop
  | .fixed s => NeutralZ s
  | .dyn col => col ≠ [] ∧ ∀ x ∈ col, GoodStr x ∧ GoodStr (dropExt x)

instance (s : String) : Decidable (NeutralZ s) :=
  inferInstanceAs (Decidable (_ = _))

instance (s : String) : Decidable (OneCap s) :=
  inferInstanceAs (Decidable (_ = _))

instance (s : String) : Decidable (GoodStr s) :=
  inferInstanceAs (Decidable (_ ∧ _ ∧ _))

instance : DecidablePred GoodPart := fun p =>
  match p with
  | .str _ => inferInstanceAs (Decidable (_ ∧ _))
  | .globstar => inferInstanceAs (Decidable True)
  | .rx _ => inferInstanceAs (Decidable (_ ∧ _))

instance : DecidablePred GoodSet := fun set =>
  match set with
  | [] => inferInstanceAs (Decidable False)
  | _ :: _ => inferInstanceAs (Decidable (_ ∧ _ ∧ _ ∧ _ ∧ _))

instance : DecidablePred OkFlat := fun fe =>
  match fe with
  | .fixed _ => inferInstanceAs (Decidable (_ = _))
  | .dyn _ => inferInstanceAs (Decidable (_ ∧ _))

instance : DecidablePred GoodFlat := fun fe =>
  match fe with
  | .fixed _ => inferInstanceAs (Decidable (_ = _))
  | .dyn _ => inferInstanceAs (Decidable (_ ∧ _))

end Main

-- ========================= THEOREMS =========================

namespace Main

/-- Helper: the `memberify` loop, started at index `i` with accumulator `ids`,
is the sequenced indexed sanitization of the remaining pieces. -/
theorem memberifyGo_spec (idfy : String → Identifierfy.IdfyOptions → Option String)
    (prw : Bool) :
    ∀ (pieces ids : List String) (i : Nat),
      memberifyGo idfy prw pieces i ids =
        (seqOpt (pieces.mapIdx fun j name => idfy name ⟨prw, (j + i) == 0⟩)).map
          (fun l => joinSep "$" (ids ++ l)) := by
  intro pieces
  induction pieces with
  | nil => intro ids i; simp [memberifyGo, seqOpt]
  | cons name rest ih =>
    intro ids i
    simp only [memberifyGo, List.mapIdx_cons, Nat.zero_add]
    cases h : idfy name ⟨prw, i == 0⟩ with
    | none => simp [seqOpt, h]
    | some v =>
      dsimp only
      rw [ih (ids ++ [v]) (i + 1)]
      simp only [h, seqOpt]
      have he : (fun (j : Nat) (nm : String) => idfy nm ⟨prw, (j + 1 + i) == 0⟩)
          = (fun (j : Nat) (nm : String) => idfy nm ⟨prw, (j + (i + 1)) == 0⟩) := by
        funext j nm
        have : j + 1 + i = j + (i + 1) := by omega
        rw [this]
      rw [he]
      cases hs : seqOpt (rest.mapIdx fun j nm => idfy nm ⟨prw, (j + (i + 1)) == 0⟩) with
      | none => simp
      | some vs => simp

/-- C1: for every subpath, `memberify` splits the subpath into pieces on the
path separator, passes the reserved-word-prefixing option exactly when the
subpath has exactly one piece, passes the invalid-leading-character-prefixing
option exactly for the first piece (index 0), and joins the resulting
sanitized pieces with a `$` separator — i.e. it agrees with the spec-side
description `memberifyPerSpec`, for every sanitizer. -/
theorem c1_memberify_matches_spec
    (idfy : String → Identifierfy.IdfyOptions → Option String) (subpath : String) :
    memberify idfy subpath = memberifyPerSpec idfy subpath := by
  unfold memberify memberifyPerSpec
  rw [memberifyGo_spec]
  simp

end Main

namespace Main

/-- Helper: walking a clean prefix (no null names, no duplicates, disjoint
from `seen`) just accumulates the names into `seen`. -/
theorem checkMembers_append (pre rest : List Member) (seen : List String)
    (hclean : ∀ x ∈ pre, x.name ≠ none)
    (hdisj : ∀ x ∈ pre, ∀ n, x.name = some n → n ∉ seen)
    (hnodup : (pre.map Member.name).Nodup) :
    checkMembers (pre ++ rest) seen
      = checkMembers rest ((pre.map nameD).reverse ++ seen) := by
  induction pre generalizing seen with
  | nil => simp
  | cons m pre ih =>
    obtain ⟨n, hn⟩ : ∃ n, m.name = some n := by
      cases h : m.name with
      | none => exact absurd h (hclean m (by simp))
      | some v => exact ⟨v, rfl⟩
    have hnotin : n ∉ seen := hdisj m (by simp) n hn
    have hclean2 : ∀ x ∈ pre, x.name ≠ none := fun x hx => hclean x (by simp [hx])
    have hnodup1 : Member.name m ∉ pre.map Member.name := by
      simp only [List.map_cons, List.nodup_cons] at hnodup
      exact hnodup.1
    have hnodup2 : (pre.map Member.name).Nodup := by
      simp only [List.map_cons, List.nodup_cons] at hnodup
      exact hnodup.2
    have hdisj2 : ∀ x ∈ pre, ∀ n2, x.name = some n2 → n2 ∉ n :: seen := by
      intro x hx n2 hn2 hmem
      simp only [List.mem_cons] at hmem
      rcases hmem with h1 | h2
      · subst h1
        apply hnodup1
        rw [hn, ← hn2]
        exact List.mem_map_of_mem Member.name hx
      · exact hdisj x (by simp [hx]) n2 hn2 h2
    simp only [List.cons_append, checkMembers, hn, List.append_eq]
    rw [if_neg hnotin, ih (n :: seen) hclean2 hdisj2 hnodup2]
    have hmn : nameD m = n := by simp [nameD, hn]
    simp [hmn]

end Main

namespace Main

/-- Helper: a clean prefix followed by a member whose name repeats an earlier
one makes the validation loop fail with the colliding-members error. -/
theorem checkMembers_collision (pre post : List Member) (m : Member) (n : String)
    (hm : m.name = some n)
    (hdup : some n ∈ pre.map Member.name)
    (hclean : ∀ x ∈ pre, x.name ≠ none)
    (hnodup : (pre.map Member.name).Nodup) :
    checkMembers (pre ++ m :: post) []
      = .error ("Found colliding members '" ++ n ++ "'") := by
  rw [checkMembers_append pre (m :: post) [] hclean (by simp) hnodup]
  have hin : n ∈ ((pre.map nameD).reverse ++ []) := by
    simp only [List.append_nil, List.mem_reverse]
    obtain ⟨x, hx, hxn⟩ := List.mem_map.mp hdup
    have : nameD x = n := by simp [nameD, hxn]
    rw [← this]
    exact List.mem_map_of_mem nameD hx
  simp only [checkMembers, hm]
  rw [if_pos hin]

/-- Helper: a clean prefix followed by a member with a null name makes the
validation loop fail with the identifier-generation error. -/
theorem checkMembers_nullName (pre post : List Member) (m : Member)
    (hm : m.name = none)
    (hclean : ∀ x ∈ pre, x.name ≠ none)
    (hnodup : (pre.map Member.name).Nodup) :
    checkMembers (pre ++ m :: post) []
      = .error ("Could not generate a valid identifier for '" ++ m.file ++ "'") := by
  rw [checkMembers_append pre (m :: post) [] hclean (by simp) hnodup]
  simp only [checkMembers, hm]

/-- C3 (amended): in an invocation that reaches member validation, if the
derived member list is a duplicate-free, null-free prefix followed by a
member whose identifier repeats one derived earlier, the whole transform
fails with the colliding-members error naming that identifier (and produces
no replacement). -/
theorem c3_first_collision_error (glob : GlobAPI) (specs : List Specifier)
    (src fn : String) (pre post : List Member) (m : Member) (n : String)
    (h1 : glob.hasMagic src = true)
    (h2 : hasImportDefaultSpecifier specs = false)
    (h3 : jsStartsWith (patternOf src) "." = true)
    (hsplit : membersOf glob src fn = pre ++ m :: post)
    (hm : m.name = some n)
    (hdup : some n ∈ pre.map Member.name)
    (hclean : ∀ x ∈ pre, x.name ≠ none)
    (hnodup : (pre.map Member.name).Nodup) :
    transform glob specs src fn = .error ("Found colliding members '" ++ n ++ "'") := by
  unfold transform
  rw [h1]
  simp only [Bool.not_true, Bool.false_eq_true, if_false, h2, h3, ite_false]
  rw [hsplit, checkMembers_collision pre post m n hm hdup hclean hnodup]

/-- C3 counterexample: an invocation in which two distinct matched paths
(`./a-b.txt` and `./aB.txt`) derive the same identifier `aB`, yet the
resolution fails with the identifier-generation error for the earlier,
dashes-only match, not with the colliding-members error. -/
theorem c3_collision_preempted_cex :
    (membersOf
        ⟨fun s => s == "./*.txt",
         fun _ _ => ⟨["./--.txt", "./a-b.txt", "./aB.txt"], setDotStarTxt⟩⟩
        "./*.txt" "/proj/test/file.js").map Member.name
      = [none, some "aB", some "aB"]
    ∧ transform
        ⟨fun s => s == "./*.txt",
         fun _ _ => ⟨["./--.txt", "./a-b.txt", "./aB.txt"], setDotStarTxt⟩⟩
        [.importNamespace "members"] "./*.txt" "/proj/test/file.js"
      = .error "Could not generate a valid identifier for './--.txt'"
    ∧ ("Could not generate a valid identifier for './--.txt'" : String)
      ≠ "Found colliding members 'aB'" := by
  refine ⟨by decide, by decide, by decide⟩

/-- C3 witness for the amended claim, at a concrete collision. -/
theorem c3_first_collision_error_witness :
    transform
      ⟨fun s => s == "./*.txt",
       fun _ _ => ⟨["./a-b.txt", "./aB.txt"], setDotStarTxt⟩⟩
      [.importNamespace "members"] "./*.txt" "/proj/test/file.js"
      = .error "Found colliding members 'aB'" :=
  c3_first_collision_error
    ⟨fun s => s == "./*.txt", fun _ _ => ⟨["./a-b.txt", "./aB.txt"], setDotStarTxt⟩⟩
    [.importNamespace "members"] "./*.txt" "/proj/test/file.js"
    [⟨"./a-b.txt", "./a-b.txt", some "aB"⟩] []
    ⟨"./aB.txt", "./aB.txt", some "aB"⟩ "aB"
    (by decide) (by decide) (by decide) (by decide) (by decide) (by decide)
    (by decide) (by decide)

/-- C4 (amended): in an invocation that reaches member validation, if the
derived member list is a duplicate-free, null-free prefix followed by a
member whose identifier derivation returned null, the whole transform fails
with the identifier-generation error naming that member's matched path (and
returns no partial results). -/
theorem c4_first_null_identifier_error (glob : GlobAPI) (specs : List Specifier)
    (src fn : String) (pre post : List Member) (m : Member)
    (h1 : glob.hasMagic src = true)
    (h2 : hasImportDefaultSpecifier specs = false)
    (h3 : jsStartsWith (patternOf src) "." = true)
    (hsplit : membersOf glob src fn = pre ++ m :: post)
    (hm : m.name = none)
    (hclean : ∀ x ∈ pre, x.name ≠ none)
    (hnodup : (pre.map Member.name).Nodup) :
    transform glob specs src fn
      = .error ("Could not generate a valid identifier for '" ++ m.file ++ "'") := by
  unfold transform
  rw [h1]
  simp only [Bool.not_true, Bool.false_eq_true, if_false, h2, h3, ite_false]
  rw [hsplit, checkMembers_nullName pre post m hm hclean hnodup]

/-- C4 counterexample: an invocation in which the derivation for the matched
path `./~~.txt` returns null, yet the operation aborts with the
colliding-members error for the earlier duplicate `aB`, not with the
identifier-generation error naming `./~~.txt`. -/
theorem c4_null_preempted_cex :
    (membersOf
        ⟨fun s => s == "./*.txt",
         fun _ _ => ⟨["./a-b.txt", "./aB.txt", "./~~.txt"], setDotStarTxt⟩⟩
        "./*.txt" "/proj/test/file.js").map Member.name
      = [some "aB", some "aB", none]
    ∧ transform
        ⟨fun s => s == "./*.txt",
         fun _ _ => ⟨["./a-b.txt", "./aB.txt", "./~~.txt"], setDotStarTxt⟩⟩
        [.importNamespace "members"] "./*.txt" "/proj/test/file.js"
      = .error "Found colliding members 'aB'"
    ∧ ("Found colliding members 'aB'" : String)
      ≠ "Could not generate a valid identifier for './~~.txt'" := by
  refine ⟨by decide, by decide, by decide⟩

/-- C4 witness for the amended claim, at a concrete null derivation. -/
theorem c4_first_null_identifier_error_witness :
    transform
      ⟨fun s => s == "./*.txt",
       fun _ _ => ⟨["./--.txt"], setDotStarTxt⟩⟩
      [.importNamespace "members"] "./*.txt" "/proj/test/file.js"
      = .error "Could not generate a valid identifier for './--.txt'" :=
  c4_first_null_identifier_error
    ⟨fun s => s == "./*.txt", fun _ _ => ⟨["./--.txt"], setDotStarTxt⟩⟩
    [.importNamespace "members"] "./*.txt" "/proj/test/file.js"
    [] [] ⟨"./--.txt", "./--.txt", none⟩
    (by decide) (by decide) (by decide) (by decide) (by decide) (by decide)
    (by decide)

end Main

namespace Main

/-- C2: when the dynamic span ends at the pattern's last segment, the trailing
literal extension is split off and excluded from the capture: the compiled
expressions close the capture group before the extension, and for the matches
`a.foo.txt`, `b.foo.txt` the derived identifiers are `aFoo`, `bFoo` under the
pattern `*.txt` but `a`, `b` under the pattern `*.foo.txt`. -/
theorem c2_trailing_extension_split :
    makeSubpathExpression setStarTxt = "^((?!\\.)(?=.)[^/]*?)\\.txt$"
    ∧ makeSubpathExpression setStarFooTxt = "^((?!\\.)(?=.)[^/]*?)\\.foo\\.txt$"
    ∧ (generateMembers ⟨["a.foo.txt", "b.foo.txt"], setStarTxt⟩ "/base").map Member.name
        = [some "aFoo", some "bFoo"]
    ∧ (generateMembers ⟨["a.foo.txt", "b.foo.txt"], setStarFooTxt⟩ "/base").map Member.name
        = [some "a", some "b"] := by
  refine ⟨by decide, by decide, by decide, by decide⟩

/-- C7: when the import's source has wildcard syntax, no default specifier is
present, and the pattern left after stripping the optional `glob:` tag does
not begin with the relative-path marker `.` (absolute patterns included), the
transform fails with the must-be-relative error and performs no rewrite. -/
theorem c7_nonrelative_pattern_error (glob : GlobAPI) (specs : List Specifier)
    (src fn : String)
    (h1 : glob.hasMagic src = true)
    (h2 : hasImportDefaultSpecifier specs = false)
    (h3 : jsStartsWith (patternOf src) "." = false) :
    transform glob specs src fn
      = .error ("Glob pattern must be relative, was '" ++ patternOf src ++ "'") := by
  unfold transform
  rw [h1]
  simp [h2, h3]

/-- C7 witness at the pattern `glob:folder/*`. -/
theorem c7_nonrelative_pattern_error_witness :
    transform ⟨fun _ => true, fun _ _ => ⟨[], []⟩⟩ [] "glob:folder/*" "/a/b.js"
      = .error "Glob pattern must be relative, was 'folder/*'" := by
  rw [c7_nonrelative_pattern_error ⟨fun _ => true, fun _ _ => ⟨[], []⟩⟩ []
    "glob:folder/*" "/a/b.js" (by decide) (by decide) (by decide)]
  decide

/-- C8 (amended): a named binding whose imported name matches no derived
member fails with the could-not-match error listing the member names in
match order (the glob primitive's path ordering), joined with
comma/quote separators. -/
theorem c8_unmatched_import_error (glob : GlobAPI) (src fn imp loc : String)
    (h1 : glob.hasMagic src = true)
    (h3 : jsStartsWith (patternOf src) "." = true)
    (hcheck : checkMembers (membersOf glob src fn) [] = .ok ())
    (habsent : (membersOf glob src fn).find? (fun m => m.name == some imp) = none) :
    transform glob [.importNamed imp loc] src fn
      = .error ("Could not match import '" ++ imp ++
          "' to a module. Available members are '" ++
          joinSep "', '" ((membersOf glob src fn).map nameD) ++ "'") := by
  unfold transform
  rw [h1]
  simp only [Bool.not_true, Bool.false_eq_true, if_false, h3, ite_false,
    hasImportDefaultSpecifier, List.any_cons, List.any_nil, Bool.or_false]
  rw [hcheck]
  simp only [List.length_cons, List.length_nil, Nat.zero_lt_succ, if_true,
    buildReplacement, buildOne, habsent]

/-- C8 counterexample: the member names are listed in match order, which is
not sorted order — the identifiers derived from the sorted paths
`./b-c.txt`, `./bB.txt` are listed as `bC`, `bB`, not as the sorted
`bB`, `bC`. -/
theorem c8_names_not_sorted_cex :
    transform
      ⟨fun s => s == "./*.txt",
       fun _ _ => ⟨["./b-c.txt", "./bB.txt"], setDotStarTxt⟩⟩
      [.importNamed "baz" "baz"] "./*.txt" "/proj/test/file.js"
      = .error "Could not match import 'baz' to a module. Available members are 'bC', 'bB'"
    ∧ ("Could not match import 'baz' to a module. Available members are 'bC', 'bB'" : String)
      ≠ "Could not match import 'baz' to a module. Available members are 'bB', 'bC'" := by
  refine ⟨by decide, by decide⟩

/-- C8 witness for the amended claim. -/
theorem c8_unmatched_import_error_witness :
    transform
      ⟨fun s => s == "./*.txt",
       fun _ _ => ⟨["./b-c.txt", "./bB.txt"], setDotStarTxt⟩⟩
      [.importNamed "qux" "qux"] "./*.txt" "/proj/test/file.js"
      = .error "Could not match import 'qux' to a module. Available members are 'bC', 'bB'" := by
  rw [c8_unmatched_import_error
    ⟨fun s => s == "./*.txt", fun _ _ => ⟨["./b-c.txt", "./bB.txt"], setDotStarTxt⟩⟩
    "./*.txt" "/proj/test/file.js" "qux" "qux"
    (by decide) (by decide) (by decide) (by decide)]
  decide

/-- C9: every member's resolved import path starts with the two characters
`./` (hence is relative, not absolute), and resolution normalizes against the
importing file's directory: a match produced by the pattern
`../test/fixtures/foo-bar/*.txt` from `/proj/test` resolves to
`./fixtures/foo-bar/foo-bar.txt`. -/
theorem c9_resolved_paths_relative :
    (∀ (globObj : GlobResult) (cwd : String) (m : Member),
      m ∈ generateMembers globObj cwd → m.relative.data.take 2 = ['.', '/'])
    ∧ (generateMembers ⟨["../test/fixtures/foo-bar/foo-bar.txt"], setDotDotFooBar⟩
        "/proj/test").map Member.relative
      = ["./fixtures/foo-bar/foo-bar.txt"] := by
  constructor
  · intro globObj cwd m hm
    unfold generateMembers at hm
    simp only [List.mem_map] at hm
    obtain ⟨file, _, rfl⟩ := hm
    simp [String.data_append]
  · decide

/-- C9 witness: the head member of a concrete invocation. -/
theorem c9_resolved_paths_relative_witness :
    ((generateMembers ⟨["a.foo.txt"], setStarTxt⟩ "/base").getD 0
        ⟨"", "", none⟩).relative.data.take 2 = ['.', '/'] :=
  c9_resolved_paths_relative.1 ⟨["a.foo.txt"], setStarTxt⟩ "/base"
    ((generateMembers ⟨["a.foo.txt"], setStarTxt⟩ "/base").getD 0 ⟨"", "", none⟩)
    (by decide)

/-- C10: an import whose source neither starts with the `glob:` tag nor has
wildcard syntax according to the glob primitive is left entirely unchanged. -/
theorem c10_no_magic_unchanged (glob : GlobAPI) (specs : List Specifier)
    (src fn : String)
    (h1 : glob.hasMagic src = false)
    (h2 : jsStartsWith src "glob:" = false) :
    transform glob specs src fn = .unchanged := by
  unfold transform
  rw [h1]
  simp [h2]

/-- C10 witness at a plain module path. -/
theorem c10_no_magic_unchanged_witness :
    transform ⟨fun _ => false, fun _ _ => ⟨[], []⟩⟩ [] "fixtures/multiple/foo.txt" "/a/b.js"
      = .unchanged :=
  c10_no_magic_unchanged ⟨fun _ => false, fun _ _ => ⟨[], []⟩⟩ []
    "fixtures/multiple/foo.txt" "/a/b.js" (by decide) (by decide)

end Main

namespace Sub

/-- Clamping an out-of-range index yields the last index. -/
theorem clampIdx_of_gt {i l : Int} (h : l < i) : clampIdx i l = l := if_pos h

/-- Clamping the last index is the identity. -/
theorem clampIdx_last (l : Int) : clampIdx l l = l := if_neg (lt_irrefl l)

/-- C6: an indexed member request with index greater than the last dynamic
capture index behaves exactly as a request for the last index (clamping), and
when the (clamped) index selects the final filename position the common
trailing extension is still stripped from that sub-capture before identifier
derivation: with matches `x/a.foo.txt`, `x/b.foo.txt` under `x/*.txt` and the
out-of-range index `5`, the derived identifiers are `a`, `b` (extension
`.foo.txt` stripped), not `aFooTxt`, `bFooTxt`. -/
theorem c6_indexed_clamp_and_strip :
    (∀ (found : List String) (set : List (List Main.MMPart)) (options : MMOptions)
        (cwd : String) (n : Int),
      1 ≤ dynCount (set.headD []) →
      dynCount (set.headD []) - 1 < n →
      generateMembers found set options cwd n
        = generateMembers found set options cwd (dynCount (set.headD []) - 1))
    ∧ (generateMembers ["x/a.foo.txt", "x/b.foo.txt"] setSubXTxt
        ⟨false, false, false⟩ "/base" 5).map Main.Member.name
      = [some "a", some "b"]
    ∧ ((generateMembers ["x/a.foo.txt", "x/b.foo.txt"] setSubXTxt
        ⟨false, false, false⟩ "/base" 5).map Main.Member.name
      ≠ [some "aFooTxt", some "bFooTxt"]) := by
  refine ⟨?_, by decide, by decide⟩
  intro found set options cwd n hc hn
  have h1 : n ≥ 0 := by omega
  have h2 : dynCount (set.headD []) - 1 ≥ 0 := by omega
  unfold generateMembers
  rw [if_pos h1, if_pos h2]
  unfold generateMembersPos
  rw [clampIdx_of_gt hn, clampIdx_last]

/-- C6 witness: the clamping equality at the concrete out-of-range index. -/
theorem c6_indexed_clamp_and_strip_witness :
    generateMembers ["x/a.foo.txt", "x/b.foo.txt"] setSubXTxt
        ⟨false, false, false⟩ "/base" 5
      = generateMembers ["x/a.foo.txt", "x/b.foo.txt"] setSubXTxt
        ⟨false, false, false⟩ "/base" 0 :=
  c6_indexed_clamp_and_strip.1 ["x/a.foo.txt", "x/b.foo.txt"] setSubXTxt
    ⟨false, false, false⟩ "/base" 5 (by decide) (by decide)

end Sub

namespace Main

theorem capStep_shift (k : Nat) (st : CapSt) (c : Char) :
    capStep ⟨k + st.count, st.esc, st.paren⟩ c
      = ⟨k + (capStep st c).count, (capStep st c).esc, (capStep st c).paren⟩ := by
  unfold capStep
  rcases st with ⟨n, e, p⟩
  dsimp
  split_ifs <;> simp_all <;> omega

theorem runCaps_shift (k : Nat) (st : CapSt) (l : List Char) :
    runCaps ⟨k + st.count, st.esc, st.paren⟩ l
      = ⟨k + (runCaps st l).count, (runCaps st l).esc, (runCaps st l).paren⟩ := by
  induction l generalizing st with
  | nil => rfl
  | cons c l ih =>
    unfold runCaps
    simp only [List.foldl_cons]
    rw [capStep_shift]
    exact ih (capStep st c)

theorem runCaps_append (st : CapSt) (a b : List Char) :
    runCaps st (a ++ b) = runCaps (runCaps st a) b := by
  unfold runCaps
  rw [List.foldl_append]

theorem nz_append {a b : String} (ha : NeutralZ a) (hb : NeutralZ b) :
    NeutralZ (a ++ b) := by
  unfold NeutralZ at *
  rw [String.data_append, runCaps_append, ha, hb]

theorem oneCap_append_nz {a b : String} (ha : OneCap a) (hb : NeutralZ b) :
    OneCap (a ++ b) := by
  unfold OneCap NeutralZ at *
  rw [String.data_append, runCaps_append, ha]
  have := runCaps_shift 1 initSt b.data
  simp only [initSt] at this hb ⊢
  rw [show (1 : Nat) + 0 = 1 from rfl] at this
  rw [this, hb]
  rfl

theorem nz_append_oneCap {a b : String} (ha : NeutralZ a) (hb : OneCap b) :
    OneCap (a ++ b) := by
  unfold OneCap NeutralZ at *
  rw [String.data_append, runCaps_append, ha, hb]

end Main

namespace Main

theorem runCaps_alnum (l : List Char) (h : ∀ c ∈ l, isAln c = true) :
    runCaps initSt l = initSt := by
  induction l with
  | nil => rfl
  | cons c l ih =>
    have hc : isAln c = true := h c (by simp)
    have hstep : capStep initSt c = initSt := by
      unfold capStep initSt
      have h1 : c ≠ '\\' := by
        intro he; rw [he] at hc; exact absurd hc (by decide)
      have h2 : c ≠ '(' := by
        intro he; rw [he] at hc; exact absurd hc (by decide)
      simp [h1, h2]
    unfold runCaps
    simp only [List.foldl_cons]
    rw [show List.foldl capStep (capStep initSt c) l
        = runCaps (capStep initSt c) l from rfl, hstep]
    exact ih (fun x hx => h x (by simp [hx]))

theorem grpRev_decomp {l : List Char} {n : Nat} {rest : List Char}
    (h : grpRev l = some (n, rest)) :
    l = l.takeWhile isAln ++ '.' :: '\\' :: rest
      ∧ n = (l.takeWhile isAln).length + 2 := by
  unfold grpRev at h
  by_cases he : (l.takeWhile isAln).isEmpty
  · simp [he] at h
  · simp only [he, Bool.false_eq_true, if_false] at h
    split at h
    next r heq =>
      simp only [Option.some.injEq, Prod.mk.injEq] at h
      obtain ⟨hn, hr⟩ := h
      subst hr
      refine ⟨?_, hn.symm⟩
      conv_lhs => rw [← List.takeWhile_append_dropWhile isAln l]
      rw [heq]
    next => exact absurd h (by simp)

theorem extLenRev_le (f : Nat) (l : List Char) : extLenRev f l ≤ l.length := by
  induction f generalizing l with
  | zero => simp [extLenRev]
  | succ f ih =>
    unfold extLenRev
    cases hg : grpRev l with
    | none => simp
    | some q =>
      obtain ⟨n, rest⟩ := q
      dsimp only
      obtain ⟨hdec, hn⟩ := grpRev_decomp hg
      have hlen := congrArg List.length hdec
      simp only [List.length_append, List.length_cons] at hlen
      have := ih rest
      omega

theorem runCaps_take_extLenRev (f : Nat) (l : List Char) :
    runCaps initSt ((l.take (extLenRev f l)).reverse) = initSt := by
  induction f generalizing l with
  | zero => simp [extLenRev]; rfl
  | succ f ih =>
    unfold extLenRev
    cases hg : grpRev l with
    | none => simp; rfl
    | some q =>
      obtain ⟨n, rest⟩ := q
      dsimp only
      obtain ⟨hdec, hn⟩ := grpRev_decomp hg
      have htake : l.take (n + extLenRev f rest)
          = l.takeWhile isAln ++ '.' :: '\\' :: rest.take (extLenRev f rest) := by
        conv_lhs => rw [hdec]
        rw [hn]
        rw [show (l.takeWhile isAln).length + 2 + extLenRev f rest
            = (l.takeWhile isAln).length + (2 + extLenRev f rest) by omega]
        rw [List.take_append]
        rw [show 2 + extLenRev f rest = extLenRev f rest + 1 + 1 from by omega,
          List.take_succ_cons, List.take_succ_cons]
      rw [htake]
      simp only [List.reverse_append, List.reverse_cons]
      rw [show ((rest.take (extLenRev f rest)).reverse ++ ['\\'] ++ ['.'])
          ++ (l.takeWhile isAln).reverse
          = (rest.take (extLenRev f rest)).reverse
            ++ (['\\', '.'] ++ (l.takeWhile isAln).reverse) by simp]
      rw [runCaps_append, ih rest, runCaps_append]
      rw [show runCaps initSt ['\\', '.'] = initSt by decide]
      apply runCaps_alnum
      intro c hcm
      exact List.mem_takeWhile_imp (List.mem_reverse.mp hcm)

theorem takeExt_neutral (s : String) : NeutralZ (takeExt s) := by
  unfold NeutralZ takeExt extLen
  have hdata : (String.mk (s.data.drop
      (s.data.length - extLenRev s.length s.data.reverse))).data
      = s.data.drop (s.data.length - extLenRev s.length s.data.reverse) := rfl
  rw [hdata]
  have hrev : s.data.drop (s.data.length - extLenRev s.length s.data.reverse)
      = ((s.data.reverse.take (extLenRev s.length s.data.reverse)).reverse) := by
    rw [List.reverse_take]
    simp
  rw [hrev]
  exact runCaps_take_extLenRev s.length s.data.reverse

end Main

namespace Main

theorem oneCap_open {s : String} (h : GoodStr s) : OneCap ("(" ++ s) := by
  obtain ⟨hnz, hne, hq⟩ := h
  obtain ⟨c, rest, hdata⟩ : ∃ c rest, s.data = c :: rest := by
    cases hs : s.data with
    | nil => exact absurd hs hne
    | cons c rest => exact ⟨c, rest, rfl⟩
  have hcq : c ≠ '?' := by
    intro hc
    rw [hdata, hc] at hq
    simp at hq
  unfold OneCap
  rw [String.data_append, hdata]
  show runCaps initSt ('(' :: c :: rest) = _
  unfold runCaps
  simp only [List.foldl_cons]
  rw [show capStep initSt '(' = ⟨0, false, true⟩ from by decide]
  have h2 : capStep ⟨0, false, true⟩ c
      = ⟨1 + (capStep initSt c).count, (capStep initSt c).esc,
         (capStep initSt c).paren⟩ := by
    unfold capStep initSt
    simp only [Bool.true_and]
    split_ifs <;> simp_all
  rw [h2]
  have h3 := runCaps_shift 1 (capStep initSt c) rest
  unfold runCaps at h3
  rw [h3]
  have h4 : List.foldl capStep (capStep initSt c) rest = initSt := by
    unfold NeutralZ runCaps at hnz
    rw [hdata] at hnz
    simpa using hnz
  rw [h4]
  rfl

theorem mem_uniq {x : String} : ∀ {l : List String}, x ∈ uniq l → x ∈ l := by
  intro l
  induction l with
  | nil => simp [uniq]
  | cons y rest ih =>
    intro hx
    unfold uniq at hx
    simp only [List.mem_cons] at hx ⊢
    rcases hx with h1 | h2
    · exact Or.inl h1
    · exact Or.inr (ih (List.mem_of_mem_filter h2))

theorem uniq_ne_nil {l : List String} (h : l ≠ []) : uniq l ≠ [] := by
  cases l with
  | nil => exact absurd rfl h
  | cons x rest => simp [uniq]

theorem joinSep_cons_cons (sep x y : String) (rest : List String) :
    joinSep sep (x :: y :: rest) = x ++ sep ++ joinSep sep (y :: rest) := rfl

theorem nz_joinSep (sep : String) (hsep : NeutralZ sep) :
    ∀ (l : List String), (∀ x ∈ l, NeutralZ x) → NeutralZ (joinSep sep l) := by
  intro l
  induction l with
  | nil => intro _; exact (by decide : NeutralZ "")
  | cons x rest ih =>
    intro h
    cases rest with
    | nil => simpa [joinSep] using h x (by simp)
    | cons y t =>
      rw [joinSep_cons_cons]
      exact nz_append (nz_append (h x (by simp)) hsep)
        (ih (fun z hz => h z (by simp [hz])))

theorem oneCap_joinSep (sep : String) (hsep : NeutralZ sep) :
    ∀ (pre : List String) (o : String) (post : List String),
      (∀ x ∈ pre, NeutralZ x) → OneCap o → (∀ x ∈ post, NeutralZ x) →
      OneCap (joinSep sep (pre ++ o :: post)) := by
  intro pre
  induction pre with
  | nil =>
    intro o post _ ho hpost
    cases post with
    | nil => simpa [joinSep]
    | cons y t =>
      rw [List.nil_append, joinSep_cons_cons]
      exact oneCap_append_nz (oneCap_append_nz ho hsep)
        (nz_joinSep sep hsep _ hpost)
  | cons x pre ih =>
    intro o post hpre ho hpost
    have hx : NeutralZ x := hpre x (by simp)
    have hrest : pre ++ o :: post ≠ [] := by simp
    obtain ⟨y, t, hyt⟩ : ∃ y t, pre ++ o :: post = y :: t := by
      cases hq : pre ++ o :: post with
      | nil => exact absurd hq hrest
      | cons y t => exact ⟨y, t, rfl⟩
    rw [List.cons_append, hyt, joinSep_cons_cons, ← hyt]
    exact nz_append_oneCap (nz_append hx hsep)
      (ih o post (fun z hz => hpre z (by simp [hz])) ho hpost)

theorem nz_ncgroup (l : List String) (h : ∀ x ∈ l, NeutralZ x) :
    NeutralZ ("(?:" ++ joinSep "|" l ++ ")") := by
  exact nz_append (nz_append (by decide) (nz_joinSep "|" (by decide) l h)) (by decide)

theorem nz_joinExpression (col : List String) (hne : col ≠ [])
    (h : ∀ x ∈ col, NeutralZ x) : NeutralZ (joinExpression col) := by
  unfold joinExpression
  split_ifs with hlen
  · exact nz_ncgroup col h
  · cases col with
    | nil => exact absurd rfl hne
    | cons x rest => simpa [List.headD] using h x (by simp)

theorem good_joinExpression (col : List String) (hne : col ≠ [])
    (h : ∀ x ∈ col, GoodStr x) : GoodStr (joinExpression col) := by
  unfold joinExpression
  split_ifs with hlen
  · have hd : (("(?:" ++ joinSep "|" col) ++ ")").data
        = '(' :: '?' :: ':' :: ((joinSep "|" col).data ++ [')']) := by
      simp [String.data_append]
    refine ⟨nz_ncgroup col (fun x hx => (h x hx).1), ?_, ?_⟩
    · rw [hd]; simp
    · rw [hd]; simp
  · cases col with
    | nil => exact absurd rfl hne
    | cons x rest => simpa [List.headD] using h x (by simp)

theorem splitExt_fst_mem {col : List String} {y : String}
    (h : y ∈ (splitExtensions col).1) : ∃ x ∈ col, y = dropExt x ∨ y = x := by
  induction col with
  | nil => simp [splitExtensions] at h
  | cons e rest ih =>
    simp only [splitExtensions] at h
    split_ifs at h with hx
    · simp only [List.mem_cons] at h
      rcases h with h1 | h2
      · exact ⟨e, by simp, Or.inl h1⟩
      · obtain ⟨x, hx1, hx2⟩ := ih h2
        exact ⟨x, by simp [hx1], hx2⟩
    · simp only [List.mem_cons] at h
      rcases h with h1 | h2
      · exact ⟨e, by simp, Or.inr h1⟩
      · obtain ⟨x, hx1, hx2⟩ := ih h2
        exact ⟨x, by simp [hx1], hx2⟩

theorem splitExt_fst_ne_nil {col : List String} (h : col ≠ []) :
    (splitExtensions col).1 ≠ [] := by
  cases col with
  | nil => exact absurd rfl h
  | cons e rest =>
    simp only [splitExtensions]
    split_ifs <;> simp

theorem splitExt_snd_mem {col : List String} {z : String}
    (h : z ∈ (splitExtensions col).2) : ∃ x ∈ col, z = takeExt x := by
  induction col with
  | nil => simp [splitExtensions] at h
  | cons e rest ih =>
    simp only [splitExtensions] at h
    split_ifs at h with hx
    · simp only [List.mem_cons] at h
      rcases h with h1 | h2
      · exact ⟨e, by simp, h1⟩
      · obtain ⟨x, hx1, hx2⟩ := ih h2
        exact ⟨x, by simp [hx1], hx2⟩
    · obtain ⟨x, hx1, hx2⟩ := ih h
      exact ⟨x, by simp [hx1], hx2⟩

end Main

namespace Main

theorem findIdxDyn_some_of_any :
    ∀ {l : List FlatExpr}, l.any isDyn = true → ∃ cs, findIdxDyn l = some cs := by
  intro l
  induction l with
  | nil => simp
  | cons x rest ih =>
    intro h
    unfold findIdxDyn
    by_cases hx : isDyn x
    · exact ⟨0, by simp [hx]⟩
    · simp only [List.any_cons, hx, Bool.false_or] at h
      obtain ⟨cs, hcs⟩ := ih h
      exact ⟨cs + 1, by simp [hx, hcs]⟩

theorem findIdxDyn_lt :
    ∀ {l : List FlatExpr} {cs : Nat}, findIdxDyn l = some cs → cs < l.length := by
  intro l
  induction l with
  | nil => simp [findIdxDyn]
  | cons x rest ih =>
    intro cs h
    unfold findIdxDyn at h
    by_cases hx : isDyn x
    · simp only [hx, if_true] at h
      simp only [Option.some.injEq] at h
      subst h
      simp
    · simp only [hx, Bool.false_eq_true, if_false, Option.map_eq_some'] at h
      obtain ⟨k, hk, hke⟩ := h
      subst hke
      have := ih hk
      simp only [List.length_cons]
      omega

theorem findIdxDyn_isDyn :
    ∀ {l : List FlatExpr} {cs : Nat}, findIdxDyn l = some cs →
      isDyn (l.getD cs (.fixed "")) = true := by
  intro l
  induction l with
  | nil => simp [findIdxDyn]
  | cons x rest ih =>
    intro cs h
    unfold findIdxDyn at h
    by_cases hx : isDyn x
    · simp only [hx, if_true, Option.some.injEq] at h
      subst h
      simpa using hx
    · simp only [hx, Bool.false_eq_true, if_false, Option.map_eq_some'] at h
      obtain ⟨k, hk, hke⟩ := h
      subst hke
      simpa using ih hk

theorem findIdxDyn_min :
    ∀ {l : List FlatExpr} {cs : Nat}, findIdxDyn l = some cs →
      ∀ j, j < l.length → isDyn (l.getD j (.fixed "")) = true → cs ≤ j := by
  intro l
  induction l with
  | nil => simp [findIdxDyn]
  | cons x rest ih =>
    intro cs h j hj hdy
    unfold findIdxDyn at h
    by_cases hx : isDyn x
    · simp only [hx, if_true, Option.some.injEq] at h
      subst h
      exact Nat.zero_le j
    · simp only [hx, Bool.false_eq_true, if_false, Option.map_eq_some'] at h
      obtain ⟨k, hk, hke⟩ := h
      subst hke
      cases j with
      | zero => simp only [List.getD_cons_zero] at hdy; exact absurd hdy (by simpa using hx)
      | succ j =>
        have := ih hk j (by simpa using Nat.lt_of_succ_lt_succ hj)
          (by simpa using hdy)
        omega

theorem getD_reverse (l : List FlatExpr) (k : Nat) (hk : k < l.length) :
    l.reverse.getD k (.fixed "") = l.getD (l.length - 1 - k) (.fixed "") := by
  rw [List.getD_eq_getElem _ _ (by simpa using hk), List.getD_eq_getElem _ _ (by omega)]
  exact List.getElem_reverse _

theorem findLastIdxDyn_isDyn {l : List FlatExpr} {ce : Nat}
    (h : findLastIdxDyn l = some ce) :
    ce < l.length ∧ isDyn (l.getD ce (.fixed "")) = true := by
  unfold findLastIdxDyn at h
  simp only [Option.map_eq_some'] at h
  obtain ⟨k, hk, hke⟩ := h
  have hklt : k < l.length := by
    have := findIdxDyn_lt hk
    simpa using this
  have hdy := findIdxDyn_isDyn hk
  subst hke
  refine ⟨by omega, ?_⟩
  rw [← getD_reverse l k hklt]
  exact hdy

theorem findLastIdxDyn_max {l : List FlatExpr} {ce : Nat}
    (h : findLastIdxDyn l = some ce) :
    ∀ j, j < l.length → isDyn (l.getD j (.fixed "")) = true → j ≤ ce := by
  intro j hj hdy
  unfold findLastIdxDyn at h
  simp only [Option.map_eq_some'] at h
  obtain ⟨k, hk, hke⟩ := h
  have hklt : k < l.length := by
    have := findIdxDyn_lt hk
    simpa using this
  have hsame : l.length - 1 - (l.length - 1 - j) = j := by omega
  have hrev : isDyn (l.reverse.getD (l.length - 1 - j) (.fixed "")) = true := by
    rw [getD_reverse l (l.length - 1 - j) (by omega), hsame]
    exact hdy
  have := findIdxDyn_min hk (l.length - 1 - j) (by simpa using (by omega : l.length - 1 - j < l.length)) hrev
  omega

theorem findLastIdxDyn_some_of_any {l : List FlatExpr} (h : l.any isDyn = true) :
    ∃ ce, findLastIdxDyn l = some ce := by
  have hrev : l.reverse.any isDyn = true := by simpa using h
  obtain ⟨k, hk⟩ := findIdxDyn_some_of_any hrev
  exact ⟨l.length - 1 - k, by simp [findLastIdxDyn, hk]⟩

end Main

namespace Main

theorem headD_mem {l : List String} (h : l ≠ []) : l.headD "" ∈ l := by
  cases l with
  | nil => exact absurd rfl h
  | cons x rest => simp

theorem strVal_col_good {set : List (List MMPart)} {first : List MMPart}
    (hlen : ∀ e ∈ set, e.length = first.length)
    (hparts : ∀ e ∈ set, ∀ p ∈ e, GoodPart p)
    (halign : ∀ e ∈ set, ∀ i, i < first.length →
      partKind (e.getD i (.str "")) = partKind (first.getD i (.str "")))
    {i : Nat} (hi : i < first.length)
    (hkind : partKind (first.getD i (.str "")) = 0) :
    ∀ y ∈ (set.map fun expressions =>
        strVal (expressions.getD i (.str ""))).map escapeStringRegexp,
      GoodStr y ∧ GoodStr (dropExt y) := by
  intro y hy
  simp only [List.map_map, List.mem_map, Function.comp] at hy
  obtain ⟨e, he, hey⟩ := hy
  have hie : i < e.length := by rw [hlen e he]; exact hi
  have hkinde : partKind (e.getD i (.str "")) = 0 := by
    rw [halign e he i hi, hkind]
  have hmem : e.getD i (.str "") ∈ e := by
    rw [List.getD_eq_getElem _ _ hie]
    exact List.getElem_mem hie
  have hgood := hparts e he _ hmem
  cases hp : e.getD i (.str "") with
  | str s =>
    rw [hp] at hgood
    rw [← hey, hp]
    exact hgood
  | globstar => rw [hp] at hkinde; simp [partKind] at hkinde
  | rx src => rw [hp] at hkinde; simp [partKind] at hkinde

theorem rxVal_col_good {set : List (List MMPart)} {first : List MMPart}
    (hlen : ∀ e ∈ set, e.length = first.length)
    (hparts : ∀ e ∈ set, ∀ p ∈ e, GoodPart p)
    (halign : ∀ e ∈ set, ∀ i, i < first.length →
      partKind (e.getD i (.str "")) = partKind (first.getD i (.str "")))
    {i : Nat} (hi : i < first.length)
    (hkind : partKind (first.getD i (.str "")) = 2) :
    ∀ y ∈ set.map fun expressions => rxVal (expressions.getD i (.str "")),
      GoodStr y ∧ GoodStr (dropExt y) := by
  intro y hy
  simp only [List.mem_map] at hy
  obtain ⟨e, he, hey⟩ := hy
  have hie : i < e.length := by rw [hlen e he]; exact hi
  have hkinde : partKind (e.getD i (.str "")) = 2 := by
    rw [halign e he i hi, hkind]
  have hmem : e.getD i (.str "") ∈ e := by
    rw [List.getD_eq_getElem _ _ hie]
    exact List.getElem_mem hie
  have hgood := hparts e he _ hmem
  cases hp : e.getD i (.str "") with
  | str s => rw [hp] at hkinde; simp [partKind] at hkinde
  | globstar => rw [hp] at hkinde; simp [partKind] at hkinde
  | rx src =>
    rw [hp] at hgood
    rw [← hey, hp]
    exact hgood

theorem flattenSet_good {set : List (List MMPart)} (h : GoodSet set) :
    ∀ fe ∈ flattenSet set, GoodFlat fe := by
  obtain ⟨first, rest, rfl⟩ : ∃ first rest, set = first :: rest := by
    cases set with
    | nil => exact absurd h (by simp [GoodSet])
    | cons a b => exact ⟨a, b, rfl⟩
  simp only [GoodSet] at h
  obtain ⟨hfne, hlen, hparts, halign, _⟩ := h
  intro fe hfe
  simp only [flattenSet] at hfe
  obtain ⟨i, hi, hfeq⟩ := List.mem_iff_getElem.mp hfe
  rw [List.getElem_mapIdx] at hfeq
  have hi2 : i < first.length := by simpa using hi
  have hgetd : first.getD i (.str "") = first[i] := List.getD_eq_getElem _ _ hi2
  subst hfeq
  cases hfi : first[i] with
  | globstar => exact (by decide : GoodFlat (.dyn [twoStar]))
  | str s =>
    simp only
    have hkind : partKind (first.getD i (.str "")) = 0 := by
      rw [hgetd, hfi]; rfl
    have hcolgood := strVal_col_good hlen hparts halign hi2 hkind
    have hne : (((first :: rest).map fun expressions =>
        strVal (expressions.getD i (.str ""))).map escapeStringRegexp) ≠ [] := by
      simp
    split_ifs with hlen1
    · show GoodFlat (.fixed _)
      show NeutralZ _
      have hmem := headD_mem (uniq_ne_nil hne)
      exact (hcolgood _ (mem_uniq hmem)).1.1
    · exact ⟨uniq_ne_nil hne, fun x hx => hcolgood x (mem_uniq hx)⟩
  | rx src =>
    simp only
    have hkind : partKind (first.getD i (.str "")) = 2 := by
      rw [hgetd, hfi]; rfl
    have hcolgood := rxVal_col_good hlen hparts halign hi2 hkind
    have hne : ((first :: rest).map fun expressions =>
        rxVal (expressions.getD i (.str ""))) ≠ [] := by
      simp
    exact ⟨uniq_ne_nil hne, fun x hx => hcolgood x (mem_uniq hx)⟩

end Main

namespace Main

theorem getD_set_self {α : Type _} {l : List α} {i : Nat} (hi : i < l.length)
    (v d : α) : (l.set i v).getD i d = v := by
  rw [List.getD_eq_getElem _ _ (by simpa using hi), List.getElem_set]
  simp

theorem getD_set_ne {α : Type _} {l : List α} {i j : Nat} (hne : i ≠ j)
    (hj : j < l.length) (v d : α) : (l.set i v).getD j d = l.getD j d := by
  rw [List.getD_eq_getElem _ _ (by simpa using hj), List.getElem_set,
    List.getD_eq_getElem _ _ hj]
  simp [hne]

theorem oneCap_assembled (J : List String) (cs ce : Nat) (hcsce : cs ≤ ce)
    (hce : ce < J.length)
    (hall : ∀ j, j < J.length → NeutralZ (J.getD j ""))
    (hcs : GoodStr (J.getD cs "")) :
    OneCap (joinSep "/"
      (modifyAt (modifyAt J (some cs) (fun s => "(" ++ s)) (some ce)
        (fun s => s ++ ")"))) := by
  have hcslt : cs < J.length := Nat.lt_of_le_of_lt hcsce hce
  simp only [modifyAt]
  have hJ2cs : (J.set cs ("(" ++ J.getD cs "")).getD cs "" = "(" ++ J.getD cs "" :=
    getD_set_self hcslt _ _
  rcases Nat.eq_or_lt_of_le hcsce with heq | hlt
  · -- the capture opens and closes at the same column
    subst heq
    rw [hJ2cs, List.set_set]
    rw [List.set_eq_take_cons_drop _ hcslt]
    apply oneCap_joinSep "/" (by decide)
    · intro x hx
      obtain ⟨k, hk, hkx⟩ := List.mem_iff_getElem.mp hx
      rw [List.getElem_take] at hkx
      have hklt : k < J.length := by
        have := hk
        simp only [List.length_take] at this
        omega
      rw [← hkx, ← List.getD_eq_getElem J "" hklt]
      exact hall k hklt
    · exact oneCap_append_nz (oneCap_open hcs) (by decide)
    · intro x hx
      obtain ⟨k, hk, hkx⟩ := List.mem_iff_getElem.mp hx
      rw [List.getElem_drop] at hkx
      have hklt : cs + 1 + k < J.length := by
        have := hk
        simp only [List.length_drop] at this
        omega
      rw [← hkx, ← List.getD_eq_getElem J "" hklt]
      exact hall _ hklt
  · -- the capture opens strictly before it closes
    have hne : cs ≠ ce := Nat.ne_of_lt hlt
    rw [getD_set_ne hne hce]
    have hdecomp : J.set cs ("(" ++ J.getD cs "")
        = J.take cs ++ ("(" ++ J.getD cs "") :: J.drop (cs + 1) :=
      List.set_eq_take_cons_drop _ hcslt
    rw [hdecomp]
    have htklen : (J.take cs).length = cs := by
      simp only [List.length_take]
      omega
    rw [List.set_append_right _ _ (by omega)]
    rw [htklen]
    have hcep : ce - cs = (ce - cs - 1) + 1 := by omega
    rw [hcep]
    rw [List.set_cons_succ]
    apply oneCap_joinSep "/" (by decide)
    · intro x hx
      obtain ⟨k, hk, hkx⟩ := List.mem_iff_getElem.mp hx
      rw [List.getElem_take] at hkx
      have hklt : k < J.length := by
        have := hk
        simp only [List.length_take] at this
        omega
      rw [← hkx, ← List.getD_eq_getElem J "" hklt]
      exact hall k hklt
    · exact oneCap_open hcs
    · intro x hx
      obtain ⟨k, hk, hkx⟩ := List.mem_iff_getElem.mp hx
      have hklen : k < (J.drop (cs + 1)).length := by
        have := hk
        simpa using this
      rw [List.getElem_set] at hkx
      by_cases hkc : ce - cs - 1 = k
      · rw [if_pos hkc] at hkx
        rw [← hkx]
        exact nz_append (hall ce hce) (by decide)
      · rw [if_neg hkc] at hkx
        rw [List.getElem_drop] at hkx
        have hklt : cs + 1 + k < J.length := by
          simp only [List.length_drop] at hklen
          omega
        rw [← hkx, ← List.getD_eq_getElem J "" hklt]
        exact hall _ hklt

end Main

namespace Main

theorem nz_joinedOf {fe : FlatExpr} (h : OkFlat fe) : NeutralZ (joinedOf fe) := by
  cases fe with
  | fixed s => exact h
  | dyn col =>
    obtain ⟨hne, hel⟩ := h
    exact nz_joinExpression col hne (fun x hx => (hel x hx).1)

theorem good_joinedOf {fe : FlatExpr} (h : OkFlat fe) (hdy : isDyn fe = true) :
    GoodStr (joinedOf fe) := by
  cases fe with
  | fixed s => simp [isDyn] at hdy
  | dyn col =>
    obtain ⟨hne, hel⟩ := h
    exact good_joinExpression col hne hel

theorem okFlat_of_goodFlat {fe : FlatExpr} (h : GoodFlat fe) : OkFlat fe := by
  cases fe with
  | fixed s => exact h
  | dyn col => exact ⟨h.1, fun x hx => (h.2 x hx).1⟩

theorem okFlat_split {col : List String} (hne : col ≠ [])
    (h : ∀ x ∈ col, GoodStr x ∧ GoodStr (dropExt x)) :
    OkFlat (.dyn (uniq (splitExtensions col).1)) := by
  refine ⟨uniq_ne_nil (splitExt_fst_ne_nil hne), ?_⟩
  intro y hy
  obtain ⟨x, hx, hxy⟩ := splitExt_fst_mem (mem_uniq hy)
  rcases hxy with h1 | h2
  · rw [h1]; exact (h x hx).2
  · rw [h2]; exact (h x hx).1

theorem getD_map_joinedOf (l : List FlatExpr) (j : Nat) (hj : j < l.length) :
    (l.map joinedOf).getD j "" = joinedOf (l.getD j (.fixed "")) := by
  rw [List.getD_eq_getElem _ _ (by simpa using hj), List.getElem_map,
    List.getD_eq_getElem _ _ hj]

theorem oneCap_joined (exps2 : List FlatExpr) (cs ce : Nat) (hcsce : cs ≤ ce)
    (hce : ce < exps2.length)
    (hok : ∀ j, j < exps2.length → OkFlat (exps2.getD j (.fixed "")))
    (hcsdyn : isDyn (exps2.getD cs (.fixed "")) = true) :
    OneCap (joinSep "/"
      (modifyAt (modifyAt (exps2.map joinedOf) (some cs) (fun s => "(" ++ s))
        (some ce) (fun s => s ++ ")"))) := by
  apply oneCap_assembled _ cs ce hcsce (by simpa using hce)
  · intro j hj
    have hj2 : j < exps2.length := by simpa using hj
    rw [getD_map_joinedOf _ _ hj2]
    exact nz_joinedOf (hok j hj2)
  · have hcslt : cs < exps2.length := Nat.lt_of_le_of_lt hcsce hce
    rw [getD_map_joinedOf _ _ hcslt]
    exact good_joinedOf (hok cs hcslt) hcsdyn

theorem countCaptures_wrap {mid : String} (h : OneCap mid) :
    countCaptures ("^" ++ mid ++ "$") = 1 := by
  have h1 : OneCap ("^" ++ mid ++ "$") :=
    oneCap_append_nz (nz_append_oneCap (by decide) h) (by decide)
  unfold countCaptures
  unfold OneCap at h1
  rw [h1]
  rfl

end Main

namespace Main

theorem makeSubpath_structure {set : List (List MMPart)} (hgood : GoodSet set) :
    ∃ mid, makeSubpathExpression set = "^" ++ mid ++ "$" ∧ OneCap mid := by
  have hflatgood := flattenSet_good hgood
  have hany : (flattenSet set).any isDyn = true := by
    obtain ⟨first, rest, rfl⟩ : ∃ f r, set = f :: r := by
      cases set with
      | nil => exact absurd hgood (by simp [GoodSet])
      | cons a b => exact ⟨a, b, rfl⟩
    simp only [GoodSet] at hgood
    exact hgood.2.2.2.2
  obtain ⟨cs, hcs⟩ := findIdxDyn_some_of_any hany
  obtain ⟨ce, hce⟩ := findLastIdxDyn_some_of_any hany
  obtain ⟨hcelt, hcedyn⟩ := findLastIdxDyn_isDyn hce
  have hcslt := findIdxDyn_lt hcs
  have hcsdyn := findIdxDyn_isDyn hcs
  have hcsce : cs ≤ ce := findLastIdxDyn_max hce cs hcslt hcsdyn
  have hokflat : ∀ j, j < (flattenSet set).length →
      OkFlat ((flattenSet set).getD j (.fixed "")) := by
    intro j hj
    rw [List.getD_eq_getElem _ _ hj]
    exact okFlat_of_goodFlat (hflatgood _ (List.getElem_mem hj))
  simp only [makeSubpathExpression]
  rw [hcs, hce]
  dsimp only
  by_cases hlast : (ce == (flattenSet set).length - 1) = true
  · rw [if_pos hlast]
    obtain ⟨col, hcol⟩ : ∃ col, (flattenSet set).getD ce (.dyn []) = .dyn col := by
      rw [List.getD_eq_getElem _ _ hcelt]
      rw [List.getD_eq_getElem _ _ hcelt] at hcedyn
      cases hq : (flattenSet set)[ce] with
      | fixed s => rw [hq] at hcedyn; exact absurd hcedyn (by simp [isDyn])
      | dyn c => exact ⟨c, rfl⟩
    rw [hcol]
    dsimp only
    have hflce : GoodFlat (.dyn col) := by
      rw [List.getD_eq_getElem _ _ hcelt] at hcol
      rw [← hcol]
      exact hflatgood _ (List.getElem_mem hcelt)
    obtain ⟨hcolne, hcolel⟩ := hflce
    have hok : ∀ j, j < ((flattenSet set).set ce
        (FlatExpr.dyn (uniq (splitExtensions col).1))).length →
        OkFlat (((flattenSet set).set ce
          (FlatExpr.dyn (uniq (splitExtensions col).1))).getD j (.fixed "")) := by
      intro j hj
      have hj2 : j < (flattenSet set).length := by simpa using hj
      by_cases hjc : ce = j
      · subst hjc
        rw [getD_set_self hj2]
        exact okFlat_split hcolne hcolel
      · rw [getD_set_ne (fun hq => hjc hq) hj2]
        exact hokflat j hj2
    have hcsdyn2 : isDyn (((flattenSet set).set ce
        (FlatExpr.dyn (uniq (splitExtensions col).1))).getD cs (.fixed "")) = true := by
      by_cases hfc : ce = cs
      · subst hfc
        rw [getD_set_self hcelt]
        rfl
      · rw [getD_set_ne (fun hq => hfc hq) hcslt]
        exact hcsdyn
    have hb : OneCap (joinSep "/"
        (modifyAt (modifyAt (List.map joinedOf ((flattenSet set).set ce
          (FlatExpr.dyn (uniq (splitExtensions col).1)))) (some cs)
          (fun s => "(" ++ s)) (some ce) (fun s => s ++ ")"))) :=
      oneCap_joined _ cs ce hcsce (by simpa using hcelt) hok hcsdyn2
    by_cases hext : (uniq (splitExtensions col).2).length > 0
    · rw [if_pos hext]
      refine ⟨_, rfl, ?_⟩
      refine oneCap_append_nz hb ?_
      refine nz_joinExpression _ ?_ ?_
      · intro hq
        rw [hq] at hext
        simp at hext
      · intro z hz
        obtain ⟨x, _, hzx⟩ := splitExt_snd_mem (mem_uniq hz)
        rw [hzx]
        exact takeExt_neutral x
    · rw [if_neg hext]
      exact ⟨_, rfl, hb⟩
  · rw [if_neg hlast]
    dsimp only
    have hnz : ¬(List.length ([] : List String) > 0) := by simp
    rw [if_neg hnz]
    exact ⟨_, rfl, oneCap_joined _ cs ce hcsce hcelt hokflat hcsdyn⟩

end Main

namespace Main

/-- C5: for every well-formed compiled glob pattern (non-empty aligned
alternatives with well-formed part sources and at least one dynamic column),
the final matching expression is anchored at both ends (`^`…`$`), contains
exactly one capturing group (the dynamic span), and is compiled with the
ignore-case flag. -/
theorem c5_anchored_single_capture (set : List (List MMPart)) (hgood : GoodSet set) :
    (makeSubpathExpression set).data.take 1 = ['^']
    ∧ (makeSubpathExpression set).data.getLast? = some '$'
    ∧ countCaptures (makeSubpathExpression set) = 1
    ∧ (newRegExpI (makeSubpathExpression set)).ignoreCase = true := by
  obtain ⟨mid, hmid, honecap⟩ := makeSubpath_structure hgood
  rw [hmid]
  refine ⟨?_, ?_, countCaptures_wrap honecap, rfl⟩
  · rw [String.data_append, String.data_append]
    show ((['^'] ++ mid.data) ++ ['$']).take 1 = ['^']
    simp
  · rw [String.data_append]
    rw [List.getLast?_append]
    rfl

/-- C5 witness at the modelled `*.txt` pattern. -/
theorem c5_anchored_single_capture_witness :
    (makeSubpathExpression setStarTxt).data.take 1 = ['^']
    ∧ (makeSubpathExpression setStarTxt).data.getLast? = some '$'
    ∧ countCaptures (makeSubpathExpression setStarTxt) = 1
    ∧ (newRegExpI (makeSubpathExpression setStarTxt)).ignoreCase = true :=
  c5_anchored_single_capture setStarTxt (by decide)

end Main
